import Mathlib

/-!
Shallow embedding of the categorization and grouping engine of the
sakuraSSAkanri repository (src/app/models.py, src/app/services/task_grouper.py,
src/app/routes/api.py), together with proofs settling the frozen claims.

Strings are modelled as `List Char`; Python character classes (`\s`, `\d`,
`str.lower`) are modelled over the code-point ranges that can actually occur
in this application's data (ASCII, full-width Latin, CJK): `\s` is the
standard Python whitespace set, `\d` covers ASCII and full-width decimal
digits, and `str.lower` lowercases ASCII and full-width Latin capitals.
Recursions that walk a string by jumping over a matched span are written
with an explicit fuel argument (initialised to the string length) so that
every definition evaluates by kernel reduction; fuel-irrelevance lemmas
below recover the natural unfolding equations.
-/

/-- Opening parenthesis class of the regex `[（(]` in normalize_work_name. -/
def isOpenParen (c : Char) : Bool := c == '（' || c == '('

/-- Closing parenthesis class of the regex `[)）]` in normalize_work_name. -/
def isCloseParen (c : Char) : Bool := c == ')' || c == '）'

/-- Letter class of the regex `[A-Za-zＡ-Ｚａ-ｚ]` (trailing-suffix strip). -/
def isRegexLetter (c : Char) : Bool :=
  ('A' ≤ c && c ≤ 'Z') || ('a' ≤ c && c ≤ 'z') ||
  ('Ａ' ≤ c && c ≤ 'Ｚ') || ('ａ' ≤ c && c ≤ 'ｚ')

/-- Python `\d` (decimal digits), modelled over ASCII and full-width forms. -/
def isPyDigit (c : Char) : Bool :=
  ('0' ≤ c && c ≤ '9') || ('０' ≤ c && c ≤ '９')

/-- Python `\s` / `str.isspace` whitespace set. -/
def isPySpace (c : Char) : Bool :=
  c == ' ' || c == '\t' || c == '\n' || c == '\r' ||
  c == '\x0b' || c == '\x0c' ||
  c == '\u001c' || c == '\u001d' || c == '\u001e' || c == '\u001f' ||
  c == '\u0085' || c == ' ' || c == ' ' ||
  (' ' ≤ c && c ≤ ' ') ||
  c == ' ' || c == ' ' || c == ' ' || c == ' ' ||
  c == '　'

/-- Python `str.lower`, modelled on ASCII and full-width Latin capitals. -/
def pyLowerChar (c : Char) : Char :=
  if 'A' ≤ c && c ≤ 'Z' then Char.ofNat (c.toNat + 32)
  else if 'Ａ' ≤ c && c ≤ 'Ｚ' then Char.ofNat (c.toNat + 32)
  else c

/-- Python `str.lower` on a string. -/
def pyLower (s : String) : String := String.mk (s.toList.map pyLowerChar)

/-- Whether `needle` is a prefix of `hay` (Python `str.startswith`). -/
def startsWithL : List Char → List Char → Bool
  | [], _ => true
  | _ :: _, [] => false
  | a :: as, b :: bs => a == b && startsWithL as bs

/-- Whether `needle` occurs as a contiguous substring of `hay` (Python `in`). -/
def containsSub (needle : List Char) : List Char → Bool
  | [] => needle.isEmpty
  | c :: rest => startsWithL needle (c :: rest) || containsSub needle rest

/-- Whether `hay` ends with `needle` (Python `str.endswith`). -/
def endsWithL (needle hay : List Char) : Bool :=
  startsWithL needle.reverse hay.reverse

/-- Drop leading whitespace (first half of Python `str.strip()`). -/
def dropLeadWs (cs : List Char) : List Char := cs.dropWhile isPySpace

/-- Drop trailing whitespace (second half of Python `str.strip()`). -/
def stripTrailWs : List Char → List Char
  | [] => []
  | c :: rest =>
    let r := stripTrailWs rest
    if r.isEmpty && isPySpace c then [] else c :: r

/-- Python `str.strip()`: remove leading and trailing whitespace. -/
def pyStripL (cs : List Char) : List Char := stripTrailWs (dropLeadWs cs)

/-- Suffix of `cs` strictly after the first closing parenthesis, if any. -/
def findCloser : List Char → Option (List Char)
  | [] => none
  | c :: rest => if isCloseParen c then some rest else findCloser rest

theorem findCloser_length : ∀ {cs rest : List Char},
    findCloser cs = some rest → rest.length < cs.length := by
  intro cs
  induction cs with
  | nil => intro rest h; simp [findCloser] at h
  | cons c tl ih =>
    intro rest h
    simp only [findCloser] at h
    by_cases hc : isCloseParen c = true
    · simp [hc] at h; subst h; simp
    · simp [hc] at h
      exact Nat.lt_trans (ih h) (by simp)

/-- Fuelled worker for `stripParens`. -/
def stripParensF : Nat → List Char → List Char
  | 0, cs => cs
  | _ + 1, [] => []
  | fuel + 1, c :: rest =>
    if isOpenParen c then
      match findCloser rest with
      | some rest2 => stripParensF fuel rest2
      | none => c :: rest
    else
      c :: stripParensF fuel rest

/-- Translation of `re.sub(r'[（(][^)）]*[)）]', '', result)`: a match starts at
an opening parenthesis and runs through the first closing parenthesis after
it; all such non-overlapping matches are removed, scanning left to right. -/
def stripParens (cs : List Char) : List Char := stripParensF cs.length cs

theorem stripParensF_eq : ∀ (f1 : Nat) (f2 : Nat) (cs : List Char),
    cs.length ≤ f1 → cs.length ≤ f2 → stripParensF f1 cs = stripParensF f2 cs := by
  intro f1
  induction f1 with
  | zero =>
    intro f2 cs h1 _
    have : cs = [] := List.length_eq_zero.mp (Nat.le_zero.mp h1)
    subst this
    cases f2 <;> rfl
  | succ n ih =>
    intro f2 cs h1 h2
    match cs with
    | [] => cases f2 <;> rfl
    | c :: rest =>
      match f2 with
      | 0 => simp at h2
      | m + 1 =>
        simp only [stripParensF]
        have hr1 : rest.length ≤ n := by simp at h1; omega
        have hr2 : rest.length ≤ m := by simp at h2; omega
        by_cases hc : isOpenParen c = true
        · simp only [hc, if_true]
          cases hf : findCloser rest with
          | some rest2 =>
            have hl := Nat.le_of_lt (findCloser_length hf)
            exact ih m rest2 (Nat.le_trans hl hr1) (Nat.le_trans hl hr2)
          | none => rfl
        · simp only [hc, Bool.false_eq_true, if_false]
          rw [ih m rest hr1 hr2]

theorem stripParens_nil : stripParens [] = [] := rfl

theorem stripParens_cons (c : Char) (rest : List Char) :
    stripParens (c :: rest) =
      if isOpenParen c then
        match findCloser rest with
        | some rest2 => stripParens rest2
        | none => c :: rest
      else c :: stripParens rest := by
  show stripParensF (rest.length + 1) (c :: rest) = _
  simp only [stripParensF]
  by_cases hc : isOpenParen c = true
  · simp only [hc, if_true]
    cases hf : findCloser rest with
    | some rest2 =>
      exact stripParensF_eq rest.length rest2.length rest2
        (Nat.le_of_lt (findCloser_length hf)) (Nat.le_refl _)
    | none => rfl
  · simp only [hc, Bool.false_eq_true, if_false]
    rfl

/-- Translation of `re.sub(r'\s*[A-Za-zＡ-Ｚａ-ｚ]$', '', result)`: when the
last character is a letter, remove it together with the whitespace run
immediately before it. -/
def dropTrailLetter (cs : List Char) : List Char :=
  match cs.reverse with
  | [] => cs
  | c :: rest => if isRegexLetter c then (rest.dropWhile isPySpace).reverse else cs

/-- Translation of `re.sub(r'\s*\d{1,2}$', '', result)`: with a trailing run
of `k` digits, the leftmost match removes the whole run plus the preceding
whitespace when `k ≤ 2`, and removes exactly the last two digits when
`k ≥ 3` (the regex is not anchored on the left, so a longer run — e.g. a
4-digit year — still loses its final two digits). -/
def dropTrailNum (cs : List Char) : List Char :=
  let r := cs.reverse
  let k := (r.takeWhile isPyDigit).length
  if k == 0 then cs
  else if k ≤ 2 then ((r.drop k).dropWhile isPySpace).reverse
  else (r.drop 2).reverse

/-- Fuelled worker for `repl`. -/
def replF (key rep : List Char) : Nat → List Char → List Char
  | 0, cs => cs
  | _ + 1, [] => []
  | fuel + 1, c :: cs =>
    if key.isEmpty then c :: replF key rep fuel cs
    else if startsWithL key (c :: cs) then
      rep ++ replF key rep fuel ((c :: cs).drop key.length)
    else c :: replF key rep fuel cs

/-- Python `str.replace(key, rep)`: leftmost non-overlapping substitution. -/
def repl (key rep cs : List Char) : List Char := replF key rep cs.length cs

theorem replF_eq (key rep : List Char) : ∀ (f1 : Nat) (f2 : Nat) (cs : List Char),
    cs.length ≤ f1 → cs.length ≤ f2 → replF key rep f1 cs = replF key rep f2 cs := by
  intro f1
  induction f1 with
  | zero =>
    intro f2 cs h1 _
    have : cs = [] := List.length_eq_zero.mp (Nat.le_zero.mp h1)
    subst this
    cases f2 <;> rfl
  | succ n ih =>
    intro f2 cs h1 h2
    match cs with
    | [] => cases f2 <;> rfl
    | c :: rest =>
      match f2 with
      | 0 => simp at h2
      | m + 1 =>
        simp only [replF]
        have hr1 : rest.length ≤ n := by simp at h1; omega
        have hr2 : rest.length ≤ m := by simp at h2; omega
        by_cases he : key.isEmpty
        · simp only [he, if_true]
          rw [ih m rest hr1 hr2]
        · simp only [he]
          by_cases hs : startsWithL key (c :: rest) = true
          · simp only [hs, if_true]
            have hk : 1 ≤ key.length := by
              cases key with
              | nil => simp [List.isEmpty] at he
              | cons a b => simp
            have hd : ((c :: rest).drop key.length).length ≤ rest.length := by
              simp [List.length_drop]; omega
            simp only [Bool.false_eq_true, if_false]
            rw [ih m _ (Nat.le_trans hd hr1) (Nat.le_trans hd hr2)]
          · simp only [hs, Bool.false_eq_true, if_false]
            rw [ih m rest hr1 hr2]

theorem repl_nil (key rep : List Char) : repl key rep [] = [] := rfl

theorem repl_cons (key rep : List Char) (c : Char) (cs : List Char) :
    repl key rep (c :: cs) =
      if key.isEmpty then c :: repl key rep cs
      else if startsWithL key (c :: cs) then
        rep ++ repl key rep ((c :: cs).drop key.length)
      else c :: repl key rep cs := by
  show replF key rep (cs.length + 1) (c :: cs) = _
  simp only [replF]
  by_cases he : key.isEmpty
  · simp only [he, if_true]
    rfl
  · simp only [he]
    by_cases hs : startsWithL key (c :: cs) = true
    · simp only [hs, if_true, Bool.false_eq_true, if_false]
      have hk : 1 ≤ key.length := by
        cases key with
        | nil => simp [List.isEmpty] at he
        | cons a b => simp
      have hd : ((c :: cs).drop key.length).length ≤ cs.length := by
        simp [List.length_drop]; omega
      exact congrArg (rep ++ ·)
        (replF_eq key rep cs.length _ _ hd (Nat.le_refl _))
    · simp only [hs, Bool.false_eq_true, if_false]
      rfl

/-- Abbreviation substitution table of normalize_work_name, in dict order. -/
def abbreviationTable : List (List Char × List Char) :=
  [("TEL".toList, "電話".toList),
   ("tel".toList, "電話".toList),
   ("Tel".toList, "電話".toList),
   ("MTG".toList, "会議".toList),
   ("mtg".toList, "会議".toList),
   ("Mtg".toList, "会議".toList),
   ("ＴＥＬ".toList, "電話".toList),
   ("ＭＴＧ".toList, "会議".toList)]

/-- Step 4 of normalize_work_name: apply every abbreviation replacement. -/
def applyAbbrevs (cs : List Char) : List Char :=
  abbreviationTable.foldl (fun acc kv => repl kv.1 kv.2 acc) cs

/-- Worker for `collapseWs`; the flag records whether the previous character
was whitespace (i.e. we are inside a run already replaced by a space). -/
def collapseWsAux : Bool → List Char → List Char
  | _, [] => []
  | inRun, c :: rest =>
    if isPySpace c then
      if inRun then collapseWsAux true rest
      else ' ' :: collapseWsAux true rest
    else c :: collapseWsAux false rest

/-- Translation of `re.sub(r'\s+', ' ', result)`. -/
def collapseWs (cs : List Char) : List Char := collapseWsAux false cs

/-- Full normalization pipeline of `normalize_work_name` on character lists. -/
def normalizeL (cs : List Char) : List Char :=
  pyStripL (collapseWs (applyAbbrevs (dropTrailNum (dropTrailLetter (stripParens (pyStripL cs))))))

/-- `normalize_work_name` from src/app/services/task_grouper.py. -/
def normalize_work_name (s : String) : String :=
  if s = "" then "" else String.mk (normalizeL s.toList)

example : normalize_work_name "施工ノート入力（修正）" = "施工ノート入力" := by decide
example : normalize_work_name "施工ノートA" = "施工ノート" := by decide
example : normalize_work_name "TEL対応" = "電話対応" := by decide
example : normalize_work_name "Wチェック業務（1号登録）" = "Wチェック業務" := by decide
example : normalize_work_name "実績2024" = "実績20" := by decide
example : normalize_work_name "実績 12" = "実績" := by decide

/-- Keep the first occurrence of each element (model of Python set dedup;
Python set iteration order is unspecified, first-occurrence order chosen). -/
def dedupFirst : List String → List String
  | [] => []
  | x :: xs => x :: (dedupFirst xs).filter (fun y => y ≠ x)

/-- Append `name` to the member list of group `key`, creating the group at
the end when absent (defaultdict insertion behaviour). -/
def addToGroup : List (String × List String) → String → String → List (String × List String)
  | [], key, name => [(key, [name])]
  | (k, ms) :: rest, key, name =>
    if k = key then (k, ms ++ [name]) :: rest
    else (k, ms) :: addToGroup rest key name

/-- `group_work_names` from src/app/services/task_grouper.py: skip falsy
names, normalize, skip names whose normalization is empty, and collect
each surviving name under its normalized representative. -/
def group_work_names (work_names : List String) : List (String × List String) :=
  work_names.foldl
    (fun gs name =>
      if name = "" then gs
      else
        let normalized := normalize_work_name name
        if normalized = "" then gs else addToGroup gs normalized name)
    []

/-- One output group of `local_group_tasks`. -/
structure GroupOut where
  representative : String
  members : List String
deriving DecidableEq

/-- Result dictionary of `local_group_tasks`. -/
structure GroupResult where
  groups : List GroupOut
  original_count : Nat
  grouped_count : Nat
deriving DecidableEq

/-- `local_group_tasks` from src/app/services/task_grouper.py with the
default `apply_merge=False` path. -/
def local_group_tasks (work_names : List String) : GroupResult :=
  let unique_names := dedupFirst (work_names.filter (fun n => n ≠ ""))
  let original_count := unique_names.length
  if original_count = 0 then ⟨[], 0, 0⟩
  else
    let grouped := group_work_names unique_names
    let groups := grouped.map (fun p =>
      GroupOut.mk p.1 (List.insertionSort (fun a b => a ≤ b) (dedupFirst p.2)))
    let sorted := List.insertionSort (fun a b => a.representative ≤ b.representative) groups
    ⟨sorted, original_count, sorted.length⟩

/-- One entry of `CategoryMapping._keyword_cache` (src/app/models.py,
`get_cached_keywords`): keyword already lower-cased, rules listed in
descending-priority order. The priority field is retained purely so that
this ordering can be stated; matching never reads it. -/
structure CachedKeyword where
  keyword : String
  match_type : String
  category_name : String
  priority : Int
deriving DecidableEq

/-- Match test of one cached keyword rule against one lower-cased text
(the body of the inner loop of `CategoryMapping.auto_categorize`);
an unrecognised match_type matches nothing. -/
def kwMatchesText (kw : CachedKeyword) (text : String) : Bool :=
  if kw.match_type = "exact" then text == kw.keyword
  else if kw.match_type = "startswith" then startsWithL kw.keyword.toList text.toList
  else if kw.match_type = "contains" then containsSub kw.keyword.toList text.toList
  else false

/-- Candidate-text list built by `auto_categorize`: lower-cased
`source_cat` and `work_name`, skipping falsy values. -/
def texts_to_check (source_cat work_name : Option String) : List String :=
  (match source_cat with
   | some s => if s = "" then [] else [pyLower s]
   | none => []) ++
  (match work_name with
   | some s => if s = "" then [] else [pyLower s]
   | none => [])

/-- Outer rule loop of `auto_categorize`: first rule matching any
candidate text wins. -/
def scanKeywords : List CachedKeyword → List String → Option CachedKeyword
  | [], _ => none
  | kw :: rest, texts =>
    if texts.any (kwMatchesText kw) then some kw else scanKeywords rest texts

/-- `CategoryMapping.auto_categorize` from src/app/models.py, with the
cached keyword list and cached default category as parameters. -/
def auto_categorize (kws : List CachedKeyword) (source_cat work_name : Option String)
    (default_category : String) : String :=
  let texts := texts_to_check source_cat work_name
  if texts.isEmpty then default_category
  else
    match scanKeywords kws texts with
    | some kw => kw.category_name
    | none => default_category

/-- One entry of `UnitTypeRule._cache` (src/app/models.py). -/
structure UnitRule where
  keyword : String
  unit_type : String
  match_type : String
deriving DecidableEq

/-- Match test of one unit-type rule (loop body of
`UnitTypeRule.get_unit_type`): keyword lower-cased at match time. -/
def unitRuleMatches (r : UnitRule) (wnLower : String) : Bool :=
  let kw := pyLower r.keyword
  if r.match_type = "exact" then wnLower == kw
  else if r.match_type = "suffix" then endsWithL kw.toList wnLower.toList
  else if r.match_type = "contains" then containsSub kw.toList wnLower.toList
  else false

/-- Rule loop of `UnitTypeRule.get_unit_type`. -/
def scanUnitRules : List UnitRule → String → Option UnitRule
  | [], _ => none
  | r :: rest, wnLower =>
    if unitRuleMatches r wnLower then some r else scanUnitRules rest wnLower

/-- `UnitTypeRule.get_unit_type` from src/app/models.py. -/
def UnitTypeRule_get_unit_type (rules : List UnitRule) (work_name : String) : String :=
  if work_name = "" then "hours"
  else
    match scanUnitRules rules (pyLower work_name) with
    | some r => r.unit_type
    | none => "hours"

/-- The rule cache produced by `UnitTypeRule.seed_default_rules` followed by
`get_cached_rules`: the seed list is already in descending-priority order
(eight priority-20 contains rules, then priority-15 suffix rules), so the
stable priority sort leaves it in insertion order. -/
def seeded_unit_rules : List UnitRule :=
  [⟨"MTG", "hours", "contains"⟩,
   ⟨"会議", "hours", "contains"⟩,
   ⟨"ミーティング", "hours", "contains"⟩,
   ⟨"打ち合わせ", "hours", "contains"⟩,
   ⟨"打合せ", "hours", "contains"⟩,
   ⟨"面談", "hours", "contains"⟩,
   ⟨"研修", "hours", "contains"⟩,
   ⟨"移動", "hours", "contains"⟩,
   ⟨"対応", "hours", "suffix"⟩,
   ⟨"入力", "count", "suffix"⟩,
   ⟨"作成", "count", "suffix"⟩,
   ⟨"チェック", "count", "suffix"⟩,
   ⟨"確認", "count", "suffix"⟩,
   ⟨"処理", "count", "suffix"⟩,
   ⟨"登録", "count", "suffix"⟩,
   ⟨"発注", "count", "suffix"⟩,
   ⟨"手配", "count", "suffix"⟩]

/-- `get_unit_suffix` from src/app/services/task_grouper.py (the
application-context path, which delegates to `UnitTypeRule.get_unit_type`). -/
def get_unit_suffix (rules : List UnitRule) (work_name : String) : String :=
  if UnitTypeRule_get_unit_type rules work_name = "hours" then "h" else "件"

example : UnitTypeRule_get_unit_type seeded_unit_rules "電話対応" = "hours" := by decide
example : UnitTypeRule_get_unit_type seeded_unit_rules "データ入力" = "count" := by decide

/-- `SUFFIX_TO_GROUP` table from src/app/services/task_grouper.py. -/
def SUFFIX_TO_GROUP : List (String × String) :=
  [("入力", "入力系"), ("対応", "対応系"), ("作成", "作成系"), ("確認", "確認系"),
   ("管理", "管理系"), ("チェック", "チェック系"), ("処理", "処理系"),
   ("登録", "登録系"), ("発注", "発注系"), ("手配", "手配系")]

/-- `CONTAINS_TO_GROUP` table from src/app/services/task_grouper.py. -/
def CONTAINS_TO_GROUP : List (String × String) :=
  [("MTG", "MTG系"), ("ミーティング", "MTG系"), ("会議", "MTG系"),
   ("打ち合わせ", "MTG系"), ("打合せ", "MTG系"), ("面談", "面談系"),
   ("移動", "移動系"), ("キッズ", "キッズ系"), ("研修", "研修系"),
   ("説明会", "説明会系")]

/-- Local normalization inside `extract_task_group`: strip parentheticals
then strip one trailing letter, stripping whitespace after each step. -/
def localNormalizeL (cs : List Char) : List Char :=
  pyStripL (dropTrailLetter (pyStripL (stripParens cs)))

/-- Suffix-table loop of `extract_task_group`. -/
def suffixGroupScan : List (String × String) → List Char → Option (String × String)
  | [], _ => none
  | p :: rest, n =>
    if endsWithL p.1.toList n then some p else suffixGroupScan rest n

/-- Contains-table loop of `extract_task_group`: a keyword matches when it
occurs in the normalized name or in the original work name. -/
def containsGroupScan : List (String × String) → List Char → List Char → Option (String × String)
  | [], _, _ => none
  | p :: rest, n, w =>
    if containsSub p.1.toList n || containsSub p.1.toList w then some p
    else containsGroupScan rest n w

/-- `extract_task_group` from src/app/services/task_grouper.py. -/
def extract_task_group (work_name : String) : String × String :=
  if work_name = "" then ("その他", "")
  else
    let nl := localNormalizeL work_name.toList
    let normalized := String.mk nl
    match suffixGroupScan SUFFIX_TO_GROUP nl with
    | some p => (p.2, normalized)
    | none =>
      match containsGroupScan CONTAINS_TO_GROUP nl work_name.toList with
      | some p => if p.2 = "MTG系" then (p.2, "MTG") else (p.2, normalized)
      | none => ("その他", normalized)

example : extract_task_group "電話対応（折り返し）" = ("対応系", "電話対応") := by decide
example : extract_task_group "技工物ノート入力" = ("入力系", "技工物ノート入力") := by decide
example : extract_task_group "マネージャーMTG" = ("MTG系", "MTG") := by decide
example : extract_task_group "" = ("その他", "") := by decide

/-- Python `round(x, 1)` (round-half-to-even), modelled on exact rationals:
the repository feeds integer spreadsheet quantities and integer sums into
these fields, for which this model is exact. -/
def ratFloor (q : ℚ) : ℤ := q.num.fdiv (q.den : ℤ)

def roundHalfEven (q : ℚ) : ℤ :=
  let f := ratFloor q
  let r := q - (f : ℚ)
  if r < 1/2 then f
  else if 1/2 < r then f + 1
  else if f % 2 == 0 then f else f + 1

/-- Round a rational to one decimal place as Python `round(x, 1)` does. -/
def round1 (q : ℚ) : ℚ := ((roundHalfEven (q * 10) : ℚ)) / 10

example : round1 (3 : ℚ) = 3 := by
  simp only [round1, roundHalfEven, ratFloor]
  norm_num [Int.fdiv]

example : round1 (25/100 : ℚ) = 2/10 := by
  simp only [round1, roundHalfEven, ratFloor]
  norm_num [Int.fdiv]

example : round1 (35/100 : ℚ) = 4/10 := by
  simp only [round1, roundHalfEven, ratFloor]
  norm_num [Int.fdiv]

/-- One ranking row fed to `group_ranking_by_task_group` (absent dictionary
keys are modelled by their Python defaults: empty string and zero). -/
structure RankItem where
  work_name : String
  hours : ℚ
  cost : ℚ
  quantity : ℚ
  category : String
deriving DecidableEq

/-- Accumulator value of one `(group_name, normalized)` key in the
defaultdict of `group_ranking_by_task_group`. -/
structure GroupAcc where
  members : List RankItem
  total_hours : ℚ
  total_cost : ℚ
  total_quantity : ℚ
  category : String
deriving DecidableEq

/-- Loop body of `group_ranking_by_task_group` for one item landing in an
existing (or freshly defaulted) group: append the member, add the totals,
and set the category when it is still falsy and the item has a truthy one. -/
def updAcc (g : GroupAcc) (it : RankItem) : GroupAcc :=
  { members := g.members ++ [it]
    total_hours := g.total_hours + it.hours
    total_cost := g.total_cost + it.cost
    total_quantity := g.total_quantity + it.quantity
    category := if g.category = "" ∧ it.category ≠ "" then it.category else g.category }

/-- The empty defaultdict value. -/
def emptyAcc : GroupAcc := ⟨[], 0, 0, 0, ""⟩

/-- Insert one ranking item under its key, creating the group at the end of
the (insertion-ordered) dictionary when absent. -/
def addRankItem : List ((String × String) × GroupAcc) → (String × String) → RankItem →
    List ((String × String) × GroupAcc)
  | [], key, it => [(key, updAcc emptyAcc it)]
  | (k, g) :: rest, key, it =>
    if k = key then (k, updAcc g it) :: rest
    else (k, g) :: addRankItem rest key it

/-- One output row of `group_ranking_by_task_group`. -/
structure GroupedRow where
  group_name : String
  normalized_name : String
  total_hours : ℚ
  total_cost : ℚ
  total_quantity : ℚ
  category : String
  member_count : Nat
  members : List RankItem
deriving DecidableEq

/-- Result-formatting loop body of `group_ranking_by_task_group`: one
output row per dictionary entry, with rounded hour total and the member
list sorted by descending hours. -/
def formatGroupedRow (p : (String × String) × GroupAcc) : GroupedRow :=
  { group_name := p.1.1
    normalized_name := p.1.2
    total_hours := round1 p.2.total_hours
    total_cost := p.2.total_cost
    total_quantity := p.2.total_quantity
    category := p.2.category
    member_count := p.2.members.length
    members := List.insertionSort (fun a b => b.hours ≤ a.hours) p.2.members }

/-- `group_ranking_by_task_group` from src/app/services/task_grouper.py. -/
def group_ranking_by_task_group (ranking_items : List RankItem) : List GroupedRow :=
  let gs := ranking_items.foldl
    (fun acc it => addRankItem acc (extract_task_group it.work_name) it) []
  let result := gs.map formatGroupedRow
  List.insertionSort (fun a b => b.total_hours ≤ a.total_hours) result

/-- `TaskReductionTarget.get_cached_targets` from src/app/models.py: the
set of work names whose row has the reduction flag set, modelled over the
table rows `(work_name, is_reduction_target)`. -/
def get_cached_targets (rows : List (String × Bool)) : List String :=
  (rows.filter (fun r => r.2)).map (fun r => r.1)

/-- `TaskReductionTarget.is_work_reduction_target` from src/app/models.py. -/
def is_work_reduction_target (rows : List (String × Bool)) (work_name : Option String) : Bool :=
  match work_name with
  | none => false
  | some s => if s = "" then false else (get_cached_targets rows).contains s

/-- `CategoryMapping.is_target_for_reduction` from src/app/models.py, over
the cached set of reduction-flagged category names. -/
def is_target_for_reduction (reduction_categories : List String) (display_cat : String) : Bool :=
  reduction_categories.contains display_cat

/-- Reduction-target resolution of one work item in `get_summary`
(src/app/routes/api.py lines 88-93): the display category is resolved by
`auto_categorize`, and the flag is the disjunction of the category-level
and the work-name-level tests. -/
def summary_reduction_flag (kws : List CachedKeyword) (reduction_categories : List String)
    (rows : List (String × Bool)) (cat2 work_name : Option String)
    (default_category : String) : Bool :=
  let display_cat := auto_categorize kws cat2 work_name default_category
  is_target_for_reduction reduction_categories display_cat ||
    is_work_reduction_target rows work_name

/-- C4: the step meant to strip a trailing 1-2 digit number while leaving a
4-digit year intact does not exempt the year: `\s*\d{1,2}$` is unanchored on
the left, so the final two digits of "実績2024" are removed, contradicting
the code's own comment (末尾の数字を除去（日付っぽいものは除く）) and the
spec; genuine 1-2 digit suffixes are removed as described. -/
theorem normalize_trailing_year_bug :
    normalize_work_name "実績2024" = "実績20" ∧
    normalize_work_name "実績2024" ≠ "実績2024" ∧
    normalize_work_name "実績12" = "実績" ∧
    normalize_work_name "実績2" = "実績" := by decide

/-- C6: a (keyword="入力", suffix) unit rule matches "ノート入力" and not
"入力ミス"; with the seeded rules (対応 suffix→hours, 入力 suffix→count),
"電話対応" resolves to hours with display suffix "h" and "データ入力"
resolves to count with display suffix "件". -/
theorem unit_type_suffix_cases :
    unitRuleMatches ⟨"入力", "count", "suffix"⟩ (pyLower "ノート入力") = true ∧
    unitRuleMatches ⟨"入力", "count", "suffix"⟩ (pyLower "入力ミス") = false ∧
    UnitTypeRule_get_unit_type seeded_unit_rules "電話対応" = "hours" ∧
    get_unit_suffix seeded_unit_rules "電話対応" = "h" ∧
    UnitTypeRule_get_unit_type seeded_unit_rules "データ入力" = "count" ∧
    get_unit_suffix seeded_unit_rules "データ入力" = "件" := by decide

/-- C7: with all candidate texts empty or absent, auto_categorize returns
the cached default category directly for every rule set, including rule
sets containing a contains rule with an empty keyword, which would match
any text (last conjunct) had the rules been evaluated. -/
theorem auto_categorize_empty_default (kws : List CachedKeyword) (d : String) :
    auto_categorize kws none none d = d ∧
    auto_categorize kws (some "") none d = d ∧
    auto_categorize kws none (some "") d = d ∧
    auto_categorize kws (some "") (some "") d = d ∧
    kwMatchesText ⟨"", "contains", "X", 0⟩ "" = true := by
  exact ⟨rfl, rfl, rfl, rfl, by decide⟩

/-- C5: the resolved reduction flag of get_summary is the logical OR of the
category-level test and the exact-work-name test; the concrete conjuncts
show each side firing alone (a listed work name with an unflagged category,
and a flagged category with an unlisted work name). -/
theorem summary_reduction_flag_or :
    (∀ (kws : List CachedKeyword) (redCats : List String) (rows : List (String × Bool))
       (cat2 work_name : Option String) (d : String),
      summary_reduction_flag kws redCats rows cat2 work_name d =
        (is_target_for_reduction redCats (auto_categorize kws cat2 work_name d) ||
         is_work_reduction_target rows work_name)) ∧
    summary_reduction_flag [] [] [("入力業務", true)] (some "事務") (some "入力業務") "その他" = true ∧
    is_target_for_reduction [] (auto_categorize [] (some "事務") (some "入力業務") "その他") = false ∧
    summary_reduction_flag [] ["その他"] [] (some "事務") (some "入力業務") "その他" = true ∧
    is_work_reduction_target [] (some "入力業務") = false := by
  exact ⟨fun _ _ _ _ _ _ => rfl, by decide, by decide, by decide, by decide⟩

/-- C2 counterexample: normalization is not idempotent; a name ending in
two letters loses one letter per application, so the second application
changes the result again. -/
theorem normalize_not_idempotent_cex :
    normalize_work_name "施工ノートAB" = "施工ノートA" ∧
    normalize_work_name (normalize_work_name "施工ノートAB") = "施工ノート" ∧
    normalize_work_name (normalize_work_name "施工ノートAB") ≠
      normalize_work_name "施工ノートAB" := by decide

/-- C3 counterexample: the non-empty input name "A" normalizes to the empty
string and is silently dropped by the grouping, so no group contains it and
the member-count sum 0 differs from the count 1 of non-empty input names. -/
theorem grouping_conservation_cex :
    local_group_tasks ["A"] = ⟨[], 1, 0⟩ ∧
    (((local_group_tasks ["A"]).groups.map (fun g => g.members.length)).sum = 0) ∧
    ((["A"].filter (fun n => !(n == ""))).length = 1) ∧
    group_work_names ["A"] = [] := by decide

/-- All member names of an association-list of groups, in group order. -/
def joinSnd (gs : List (String × List String)) : List String :=
  (gs.map Prod.snd).flatten

theorem joinSnd_cons (k : String) (ms : List String) (rest : List (String × List String)) :
    joinSnd ((k, ms) :: rest) = ms ++ joinSnd rest := rfl

theorem addToGroup_join_perm (gs : List (String × List String)) (k n : String) :
    (joinSnd (addToGroup gs k n)).Perm (joinSnd gs ++ [n]) := by
  induction gs with
  | nil => simp [addToGroup, joinSnd]
  | cons p rest ih =>
    obtain ⟨k0, ms⟩ := p
    by_cases h : k0 = k
    · simp only [addToGroup, h, if_true, joinSnd_cons]
      rw [List.append_assoc, List.append_assoc]
      exact List.Perm.append_left ms List.perm_append_comm
    · simp only [addToGroup, h, if_false, joinSnd_cons]
      rw [List.append_assoc]
      exact List.Perm.append_left ms ih

theorem group_work_names_fold_perm : ∀ (ns : List String) (acc : List (String × List String)),
    (joinSnd (ns.foldl
      (fun gs name =>
        if name = "" then gs
        else
          let normalized := normalize_work_name name
          if normalized = "" then gs else addToGroup gs normalized name)
      acc)).Perm
      (joinSnd acc ++ ns.filter (fun n => !(n == "") && !(normalize_work_name n == ""))) := by
  intro ns
  induction ns with
  | nil => intro acc; simp
  | cons n rest ih =>
    intro acc
    by_cases h1 : n = ""
    · simpa [List.foldl_cons, h1] using ih acc
    · by_cases h2 : normalize_work_name n = ""
      · simpa [List.foldl_cons, h1, h2] using ih acc
      · simp only [List.foldl_cons, h1, if_false, h2]
        have hfil : (n :: rest).filter (fun n => !(n == "") && !(normalize_work_name n == ""))
            = n :: rest.filter (fun n => !(n == "") && !(normalize_work_name n == "")) := by
          simp [List.filter_cons, h1, h2]
        rw [hfil]
        have hstep := ih (addToGroup acc (normalize_work_name n) n)
        have hadd := (addToGroup_join_perm acc (normalize_work_name n) n).append_right
          (rest.filter (fun n => !(n == "") && !(normalize_work_name n == "")))
        have hfin := hstep.trans hadd
        rw [List.append_assoc, List.singleton_append] at hfin
        exact hfin

/-- C3 amended: every non-empty input name whose normalized form is also
non-empty is placed in exactly one output group of group_work_names (the
concatenation of all member lists is a permutation of exactly those input
names), so the sum of the group member counts equals the number of such
names; names normalizing to the empty string are dropped, which is the
only deviation from the original claim. -/
theorem grouping_conservation_amended (work_names : List String) :
    (joinSnd (group_work_names work_names)).Perm
      (work_names.filter (fun n => !(n == "") && !(normalize_work_name n == ""))) ∧
    (joinSnd (group_work_names work_names)).length =
      (work_names.filter (fun n => !(n == "") && !(normalize_work_name n == ""))).length := by
  have h := group_work_names_fold_perm work_names []
  simp only [joinSnd, List.map_nil, List.flatten_nil, List.nil_append] at h
  exact ⟨h, h.length_eq⟩

theorem scanKeywords_eq_find (kws : List CachedKeyword) (texts : List String) :
    scanKeywords kws texts = kws.find? (fun kw => texts.any (kwMatchesText kw)) := by
  induction kws with
  | nil => rfl
  | cons kw rest ih =>
    by_cases h : texts.any (kwMatchesText kw) = true
    · simp [scanKeywords, h, List.find?_cons_of_pos]
    · simp only [Bool.not_eq_true] at h
      simp [scanKeywords, h, List.find?_cons_of_neg, ih]

theorem find_first_priority (p : CachedKeyword → Bool) :
    ∀ (kws : List CachedKeyword),
    List.Pairwise (fun a b => b.priority ≤ a.priority) kws →
    ∀ r1 ∈ kws, p r1 = true →
    ∃ r0, kws.find? p = some r0 ∧ p r0 = true ∧ r1.priority ≤ r0.priority ∧ r0 ∈ kws := by
  intro kws
  induction kws with
  | nil => intro _ r1 h; simp at h
  | cons k rest ih =>
    intro hp r1 hr1 hpr1
    by_cases hk : p k = true
    · refine ⟨k, List.find?_cons_of_pos _ hk, hk, ?_, List.mem_cons_self k rest⟩
      rcases List.mem_cons.mp hr1 with h | h
      · subst h; exact le_refl _
      · exact (List.pairwise_cons.mp hp).1 r1 h
    · have hr1' : r1 ∈ rest := by
        rcases List.mem_cons.mp hr1 with h | h
        · subst h; exact absurd hpr1 hk
        · exact h
      obtain ⟨r0, hfind, hp0, hle, hmem⟩ := ih (List.pairwise_cons.mp hp).2 r1 hr1' hpr1
      refine ⟨r0, ?_, hp0, hle, List.mem_cons_of_mem _ hmem⟩
      rw [List.find?_cons_of_neg _ (by simpa using hk)]
      exact hfind

/-- C1: over a priority-descending-sorted cached rule list and non-empty
source category and work name, auto_categorize returns the category of the
first rule matching either candidate text (or the cached default when no
rule matches), and whenever two rules with different priorities both match,
the returned label belongs to a matching rule of priority at least the
higher of the two, so the higher-priority rule's label wins regardless of
where the two rules sit relative to each other. -/
theorem auto_categorize_first_match_priority (kws : List CachedKeyword)
    (hsorted : List.Pairwise (fun a b => b.priority ≤ a.priority) kws)
    (source_cat work_name default_category : String)
    (hsc : source_cat ≠ "") (hwn : work_name ≠ "") :
    (auto_categorize kws (some source_cat) (some work_name) default_category =
      match kws.find? (fun kw =>
          kwMatchesText kw (pyLower source_cat) || kwMatchesText kw (pyLower work_name)) with
      | some kw => kw.category_name
      | none => default_category) ∧
    (∀ r1 ∈ kws, ∀ r2 ∈ kws,
      (kwMatchesText r1 (pyLower source_cat) || kwMatchesText r1 (pyLower work_name)) = true →
      (kwMatchesText r2 (pyLower source_cat) || kwMatchesText r2 (pyLower work_name)) = true →
      r2.priority < r1.priority →
      ∃ r0 ∈ kws,
        (kwMatchesText r0 (pyLower source_cat) || kwMatchesText r0 (pyLower work_name)) = true ∧
        r1.priority ≤ r0.priority ∧
        auto_categorize kws (some source_cat) (some work_name) default_category =
          r0.category_name) := by
  have htexts : texts_to_check (some source_cat) (some work_name) =
      [pyLower source_cat, pyLower work_name] := by
    simp [texts_to_check, hsc, hwn]
  have hpred : (fun kw => ([pyLower source_cat, pyLower work_name]).any (kwMatchesText kw)) =
      (fun kw => kwMatchesText kw (pyLower source_cat) || kwMatchesText kw (pyLower work_name)) := by
    funext kw
    simp [List.any]
  have hauto : auto_categorize kws (some source_cat) (some work_name) default_category =
      match kws.find? (fun kw =>
          kwMatchesText kw (pyLower source_cat) || kwMatchesText kw (pyLower work_name)) with
      | some kw => kw.category_name
      | none => default_category := by
    unfold auto_categorize
    rw [htexts]
    simp only [List.isEmpty_cons, Bool.false_eq_true, if_false, scanKeywords_eq_find, hpred]
  refine ⟨hauto, ?_⟩
  intro r1 h1 r2 h2 hm1 hm2 hlt
  obtain ⟨r0, hfind, hp0, hle, hmem⟩ := find_first_priority
    (fun kw => kwMatchesText kw (pyLower source_cat) || kwMatchesText kw (pyLower work_name))
    kws hsorted r1 h1 hm1
  refine ⟨r0, hmem, hp0, hle, ?_⟩
  rw [hauto, hfind]

/-- Witness for C1: two contains rules with priorities 20 and 10 both
match, and the higher-priority rule's label "B" is returned. -/
theorem auto_categorize_first_match_priority_witness :
    auto_categorize [⟨"b", "contains", "B", 20⟩, ⟨"a", "contains", "A", 10⟩]
      (some "xa") (some "zb") "D" = "B" := by
  have h := (auto_categorize_first_match_priority
    [⟨"b", "contains", "B", 20⟩, ⟨"a", "contains", "A", 10⟩]
    (by decide) "xa" "zb" "D" (by decide) (by decide)).1
  rw [h]
  decide

theorem suffixGroupScan_eq_find (tbl : List (String × String)) (n : List Char) :
    suffixGroupScan tbl n = tbl.find? (fun p => endsWithL p.1.toList n) := by
  induction tbl with
  | nil => rfl
  | cons p rest ih =>
    by_cases h : endsWithL p.1.toList n = true
    · simp only [String.toList] at h
      simp [suffixGroupScan, List.find?, h]
    · simp only [Bool.not_eq_true, String.toList] at h
      simp [suffixGroupScan, List.find?, h, ih]

theorem containsGroupScan_eq_find (tbl : List (String × String)) (n w : List Char) :
    containsGroupScan tbl n w =
      tbl.find? (fun p => containsSub p.1.toList n || containsSub p.1.toList w) := by
  induction tbl with
  | nil => rfl
  | cons p rest ih =>
    by_cases h : (containsSub p.1.toList n || containsSub p.1.toList w) = true
    · simp only [Bool.or_eq_true, String.toList] at h
      rcases h with h | h <;> simp [containsGroupScan, List.find?, h]
    · simp only [Bool.or_eq_true, String.toList] at h
      push_neg at h
      simp only [Bool.not_eq_true] at h
      simp [containsGroupScan, List.find?, h.1, h.2, ih]

/-- C8: for a non-empty work name, extract_task_group first consults the
ordered suffix table on the locally-normalized name; failing that, the
ordered contains table (a keyword may occur in the normalized or in the
original name), where a hit in the MTG family forces the representative
name to the literal "MTG"; failing both, the family is その他 with the
locally-normalized name as representative. -/
theorem extract_task_group_spec (work_name : String) (h : work_name ≠ "") :
    extract_task_group work_name =
      (let nl := localNormalizeL work_name.toList
       let normalized := String.mk nl
       match SUFFIX_TO_GROUP.find? (fun p => endsWithL p.1.toList nl) with
       | some p => (p.2, normalized)
       | none =>
         match CONTAINS_TO_GROUP.find? (fun p =>
             containsSub p.1.toList nl || containsSub p.1.toList work_name.toList) with
         | some p => (p.2, if p.2 = "MTG系" then "MTG" else normalized)
         | none => ("その他", normalized)) := by
  unfold extract_task_group
  simp only [h, if_false, suffixGroupScan_eq_find, containsGroupScan_eq_find]
  cases SUFFIX_TO_GROUP.find?
      (fun p => endsWithL p.1.toList (localNormalizeL work_name.toList)) with
  | some p => rfl
  | none =>
    cases CONTAINS_TO_GROUP.find?
        (fun p => containsSub p.1.toList (localNormalizeL work_name.toList) ||
          containsSub p.1.toList work_name.toList) with
    | some p =>
      by_cases hp : p.2 = "MTG系" <;> simp [hp]
    | none => rfl

/-- Witness for C8: a name with a parenthetical note hits the suffix table
after local normalization. -/
theorem extract_task_group_spec_witness :
    extract_task_group "電話対応（折り返し）" = ("対応系", "電話対応") := by
  have h := extract_task_group_spec "電話対応（折り返し）" (by decide)
  rw [h]
  decide

/-- The key under which `group_ranking_by_task_group` files an item. -/
def byRankKey (key : String × String) (it : RankItem) : Bool :=
  extract_task_group it.work_name == key

/-- All members of all groups of the ranking fold, in group order. -/
def joinRankMembers (gs : List ((String × String) × GroupAcc)) : List RankItem :=
  (gs.map (fun p => p.2.members)).flatten

/-- The category of the first member whose category is non-empty (the value
the accumulator's first-truthy-wins update converges to). -/
def firstTruthyCategory (ms : List RankItem) : String :=
  match ms.find? (fun it => !(it.category == "")) with
  | some it => it.category
  | none => ""

theorem firstTruthyCategory_append (ms : List RankItem) (it : RankItem) :
    firstTruthyCategory (ms ++ [it]) =
      if firstTruthyCategory ms = "" ∧ it.category ≠ "" then it.category
      else firstTruthyCategory ms := by
  induction ms with
  | nil =>
    by_cases h : it.category = ""
    · have hb : (!(it.category == "")) = false := by simp [h]
      simp [firstTruthyCategory, List.find?, hb, h]
    · have hb : (!(it.category == "")) = true := by simp [h]
      simp [firstTruthyCategory, List.find?, hb, h]
  | cons x ms ih =>
    by_cases hx : x.category = ""
    · have hb : (!(x.category == "")) = false := by simp [hx]
      have h1 : firstTruthyCategory (x :: ms) = firstTruthyCategory ms := by
        simp [firstTruthyCategory, List.find?, hb]
      have h2 : firstTruthyCategory ((x :: ms) ++ [it]) = firstTruthyCategory (ms ++ [it]) := by
        simp [firstTruthyCategory, List.find?, hb]
      rw [h2, h1, ih]
    · have hb : (!(x.category == "")) = true := by simp [hx]
      have h1 : firstTruthyCategory (x :: ms) = x.category := by
        simp [firstTruthyCategory, List.find?, hb]
      have h2 : firstTruthyCategory ((x :: ms) ++ [it]) = x.category := by
        simp [firstTruthyCategory, List.find?, hb]
      rw [h2, h1, if_neg]
      intro hcon
      exact hx hcon.1

/-- Everything the per-group accumulator of `group_ranking_by_task_group`
promises about one dictionary entry relative to the processed items. -/
def entryOk (processed : List RankItem) (p : (String × String) × GroupAcc) : Prop :=
  p.2.members = processed.filter (byRankKey p.1) ∧
  p.2.category = firstTruthyCategory p.2.members ∧
  p.2.total_hours = (p.2.members.map RankItem.hours).sum ∧
  p.2.total_cost = (p.2.members.map RankItem.cost).sum ∧
  p.2.total_quantity = (p.2.members.map RankItem.quantity).sum

theorem byRankKey_self (it : RankItem) : byRankKey (extract_task_group it.work_name) it = true := by
  simp [byRankKey]

theorem byRankKey_ne (key : String × String) (it : RankItem)
    (h : extract_task_group it.work_name ≠ key) : byRankKey key it = false := by
  simp [byRankKey, h]

theorem updAcc_entryOk (processed : List RankItem) (key : String × String) (g : GroupAcc)
    (it : RankItem) (hkey : key = extract_task_group it.work_name)
    (hok : entryOk processed (key, g)) :
    entryOk (processed ++ [it]) (key, updAcc g it) := by
  obtain ⟨hm, hc, hh, hcost, hq⟩ := hok
  dsimp only at hm hc hh hcost hq
  have hfil : (processed ++ [it]).filter (byRankKey key) =
      processed.filter (byRankKey key) ++ [it] := by
    rw [List.filter_append]
    simp [List.filter_cons, hkey ▸ byRankKey_self it]
  refine ⟨?_, ?_, ?_, ?_, ?_⟩
  · dsimp only [updAcc]
    rw [hfil, hm]
  · dsimp only [updAcc]
    rw [firstTruthyCategory_append, hc]
  · dsimp only [updAcc]
    rw [hh]
    simp
  · dsimp only [updAcc]
    rw [hcost]
    simp
  · dsimp only [updAcc]
    rw [hq]
    simp

theorem entryOk_skip (processed : List RankItem) (p : (String × String) × GroupAcc)
    (it : RankItem) (hne : extract_task_group it.work_name ≠ p.1)
    (hok : entryOk processed p) : entryOk (processed ++ [it]) p := by
  obtain ⟨hm, hc, hh, hcost, hq⟩ := hok
  have hfil : (processed ++ [it]).filter (byRankKey p.1) = processed.filter (byRankKey p.1) := by
    rw [List.filter_append]
    simp [List.filter_cons, byRankKey_ne p.1 it hne]
  refine ⟨?_, hc, hh, hcost, hq⟩
  rw [hfil]
  exact hm

theorem addRankItem_exists_key (gs : List ((String × String) × GroupAcc))
    (key : String × String) (it : RankItem) :
    ∃ q ∈ addRankItem gs key it, q.1 = key := by
  induction gs with
  | nil => exact ⟨(key, updAcc emptyAcc it), by simp [addRankItem], rfl⟩
  | cons p rest ih =>
    obtain ⟨k0, g0⟩ := p
    by_cases hk : k0 = key
    · exact ⟨(k0, updAcc g0 it), by simp [addRankItem, hk], hk⟩
    · obtain ⟨q, hq, hqk⟩ := ih
      exact ⟨q, by simp [addRankItem, hk, hq], hqk⟩

theorem addRankItem_keys_of_mem (gs : List ((String × String) × GroupAcc))
    (key : String × String) (it : RankItem) :
    ∀ q ∈ addRankItem gs key it, q.1 = key ∨ ∃ p ∈ gs, q.1 = p.1 := by
  induction gs with
  | nil =>
    intro q hq
    simp only [addRankItem, List.mem_singleton] at hq
    subst hq
    exact Or.inl rfl
  | cons p rest ih =>
    obtain ⟨k0, g0⟩ := p
    intro q hq
    by_cases hk : k0 = key
    · subst hk
      simp only [addRankItem, if_true] at hq
      rcases List.mem_cons.mp hq with h | h
      · subst h
        exact Or.inl rfl
      · exact Or.inr ⟨q, List.mem_cons_of_mem _ h, rfl⟩
    · simp only [addRankItem, hk, if_false] at hq
      rcases List.mem_cons.mp hq with h | h
      · subst h
        exact Or.inr ⟨(k0, g0), List.mem_cons_self _ _, rfl⟩
      · rcases ih q h with h2 | ⟨p2, hp2, he⟩
        · exact Or.inl h2
        · exact Or.inr ⟨p2, List.mem_cons_of_mem _ hp2, he⟩

theorem addRankItem_mem_keys (gs : List ((String × String) × GroupAcc))
    (key : String × String) (it : RankItem) :
    ∀ p ∈ gs, ∃ q ∈ addRankItem gs key it, q.1 = p.1 := by
  induction gs with
  | nil => intro p hp; simp at hp
  | cons p0 rest ih =>
    obtain ⟨k0, g0⟩ := p0
    intro p hp
    by_cases hk : k0 = key
    · subst hk
      rcases List.mem_cons.mp hp with h | h
      · subst h
        exact ⟨(k0, updAcc g0 it), by simp [addRankItem], rfl⟩
      · exact ⟨p, by simp [addRankItem, h], rfl⟩
    · rcases List.mem_cons.mp hp with h | h
      · subst h
        exact ⟨(k0, g0), by simp [addRankItem, hk], rfl⟩
      · obtain ⟨q, hq, he⟩ := ih p h
        exact ⟨q, by simp [addRankItem, hk, hq], he⟩

theorem addRankItem_nodup (gs : List ((String × String) × GroupAcc))
    (key : String × String) (it : RankItem)
    (h : List.Pairwise (fun p q => p.1 ≠ q.1) gs) :
    List.Pairwise (fun p q => p.1 ≠ q.1) (addRankItem gs key it) := by
  induction gs with
  | nil => simp [addRankItem]
  | cons p0 rest ih =>
    obtain ⟨k0, g0⟩ := p0
    obtain ⟨hhead, htail⟩ := List.pairwise_cons.mp h
    by_cases hk : k0 = key
    · subst hk
      simp only [addRankItem, if_true]
      exact List.pairwise_cons.mpr ⟨fun q hq => hhead q hq, htail⟩
    · simp only [addRankItem, hk, if_false]
      refine List.pairwise_cons.mpr ⟨?_, ih htail⟩
      intro q hq
      rcases addRankItem_keys_of_mem rest key it q hq with h2 | ⟨p2, hp2, he⟩
      · rw [h2]
        exact fun hc => hk hc
      · rw [he]
        exact hhead p2 hp2

theorem addRankItem_join_perm (gs : List ((String × String) × GroupAcc))
    (key : String × String) (it : RankItem) :
    (joinRankMembers (addRankItem gs key it)).Perm (joinRankMembers gs ++ [it]) := by
  induction gs with
  | nil => simp [addRankItem, joinRankMembers, updAcc, emptyAcc]
  | cons p rest ih =>
    obtain ⟨k0, g0⟩ := p
    by_cases hk : k0 = key
    · subst hk
      simp only [addRankItem, if_true, joinRankMembers, List.map_cons, List.flatten_cons]
      dsimp only [updAcc]
      rw [List.append_assoc, List.append_assoc]
      exact List.Perm.append_left g0.members List.perm_append_comm
    · simp only [addRankItem, hk, if_false, joinRankMembers, List.map_cons, List.flatten_cons]
      rw [List.append_assoc]
      exact List.Perm.append_left g0.members ih

theorem addRankItem_entryOk (gs : List ((String × String) × GroupAcc))
    (it : RankItem) (key : String × String) (hkey : key = extract_task_group it.work_name)
    (processed : List RankItem)
    (hnodup : List.Pairwise (fun p q => p.1 ≠ q.1) gs)
    (hmem : ∀ p ∈ gs, entryOk processed p)
    (hmiss : (∀ p ∈ gs, p.1 ≠ key) → processed.filter (byRankKey key) = []) :
    ∀ p ∈ addRankItem gs key it, entryOk (processed ++ [it]) p := by
  induction gs with
  | nil =>
    intro p hp
    simp only [addRankItem, List.mem_singleton] at hp
    subst hp
    have hm0 : processed.filter (byRankKey key) = [] := hmiss (by simp)
    have base : entryOk processed (key, emptyAcc) := by
      refine ⟨?_, rfl, rfl, rfl, rfl⟩
      simp [emptyAcc, hm0]
    exact updAcc_entryOk processed key emptyAcc it hkey base
  | cons p0 rest ih =>
    obtain ⟨k0, g0⟩ := p0
    obtain ⟨hhead, htail⟩ := List.pairwise_cons.mp hnodup
    intro p hp
    by_cases hk : k0 = key
    · simp only [addRankItem, hk, if_true] at hp
      rcases List.mem_cons.mp hp with h | h
      · subst h
        subst hk
        exact updAcc_entryOk processed k0 g0 it hkey (hmem (k0, g0) (List.mem_cons_self _ _))
      · refine entryOk_skip processed p it ?_ (hmem p (List.mem_cons_of_mem _ h))
        rw [← hkey, ← hk]
        exact hhead p h
    · simp only [addRankItem, hk, if_false] at hp
      rcases List.mem_cons.mp hp with h | h
      · subst h
        refine entryOk_skip processed (k0, g0) it ?_ (hmem (k0, g0) (List.mem_cons_self _ _))
        rw [← hkey]
        exact fun hc => hk hc.symm
      · refine ih htail (fun q hq => hmem q (List.mem_cons_of_mem _ hq)) ?_ p h
        intro hall
        refine hmiss ?_
        intro q hq
        rcases List.mem_cons.mp hq with h2 | h2
        · rw [h2]
          exact hk
        · exact hall q h2

theorem addRankItem_miss (gs : List ((String × String) × GroupAcc))
    (it : RankItem) (key : String × String) (hkey : key = extract_task_group it.work_name)
    (processed : List RankItem)
    (hmiss : ∀ key2, (∀ p ∈ gs, p.1 ≠ key2) → processed.filter (byRankKey key2) = []) :
    ∀ key2, (∀ p ∈ addRankItem gs key it, p.1 ≠ key2) →
      (processed ++ [it]).filter (byRankKey key2) = [] := by
  intro key2 hall
  have hkne : key ≠ key2 := by
    obtain ⟨q, hq, hqk⟩ := addRankItem_exists_key gs key it
    rw [← hqk]
    exact hall q hq
  have hgs : ∀ p ∈ gs, p.1 ≠ key2 := by
    intro p hp
    obtain ⟨q, hq, he⟩ := addRankItem_mem_keys gs key it p hp
    rw [← he]
    exact hall q hq
  rw [List.filter_append, hmiss key2 hgs]
  simp [List.filter_cons, byRankKey_ne key2 it (by rw [← hkey]; exact hkne)]

theorem rank_fold_ok (items : List RankItem) :
    ∀ (acc : List ((String × String) × GroupAcc)) (processed : List RankItem),
    List.Pairwise (fun p q => p.1 ≠ q.1) acc →
    (∀ p ∈ acc, entryOk processed p) →
    (∀ key, (∀ p ∈ acc, p.1 ≠ key) → processed.filter (byRankKey key) = []) →
    (joinRankMembers acc).Perm processed →
    List.Pairwise (fun p q => p.1 ≠ q.1)
        (items.foldl (fun a it => addRankItem a (extract_task_group it.work_name) it) acc) ∧
    (∀ p ∈ items.foldl (fun a it => addRankItem a (extract_task_group it.work_name) it) acc,
        entryOk (processed ++ items) p) ∧
    (joinRankMembers
        (items.foldl (fun a it => addRankItem a (extract_task_group it.work_name) it) acc)).Perm
      (processed ++ items) := by
  induction items with
  | nil =>
    intro acc processed h1 h2 h3 h4
    simp only [List.foldl_nil, List.append_nil]
    exact ⟨h1, h2, h4⟩
  | cons it rest ih =>
    intro acc processed h1 h2 h3 h4
    simp only [List.foldl_cons]
    have h1' := addRankItem_nodup acc (extract_task_group it.work_name) it h1
    have h2' := addRankItem_entryOk acc it (extract_task_group it.work_name) rfl processed
      h1 h2 (h3 _)
    have h3' := addRankItem_miss acc it (extract_task_group it.work_name) rfl processed h3
    have h4' : (joinRankMembers (addRankItem acc (extract_task_group it.work_name) it)).Perm
        (processed ++ [it]) :=
      (addRankItem_join_perm acc _ it).trans (h4.append_right [it])
    have hres := ih _ (processed ++ [it]) h1' h2' h3' h4'
    rw [List.append_cons processed it rest]
    exact hres

instance : IsTotal RankItem (fun a b => b.hours ≤ a.hours) :=
  ⟨fun a b => le_total b.hours a.hours⟩

instance : IsTrans RankItem (fun a b => b.hours ≤ a.hours) :=
  ⟨fun _ _ _ h1 h2 => le_trans h2 h1⟩

theorem flatten_format_perm (gs : List ((String × String) × GroupAcc)) :
    (((gs.map formatGroupedRow).map GroupedRow.members).flatten).Perm (joinRankMembers gs) := by
  induction gs with
  | nil => simp [joinRankMembers]
  | cons p rest ih =>
    simp only [List.map_cons, List.flatten_cons, joinRankMembers]
    exact (List.perm_insertionSort _ p.2.members).append ih

/-- Everything the output rows of `group_ranking_by_task_group` satisfy:
each row's member list is sorted by descending hours and is (a permutation
of) exactly the input rows keyed to that group in input order; the category
is the first non-empty member category in input order; the totals re-sum
the members (hours rounded); and all members together are a permutation of
the whole input. -/
theorem group_ranking_spec (items : List RankItem) :
    (∀ g ∈ group_ranking_by_task_group items,
      List.Pairwise (fun a b : RankItem => b.hours ≤ a.hours) g.members ∧
      g.members.Perm (items.filter (byRankKey (g.group_name, g.normalized_name))) ∧
      g.category = firstTruthyCategory (items.filter (byRankKey (g.group_name, g.normalized_name))) ∧
      g.total_hours = round1 ((g.members.map RankItem.hours).sum) ∧
      g.total_cost = (g.members.map RankItem.cost).sum ∧
      g.total_quantity = (g.members.map RankItem.quantity).sum ∧
      g.member_count = g.members.length) ∧
    (((group_ranking_by_task_group items).map GroupedRow.members).flatten).Perm items := by
  obtain ⟨hnd, hok, hperm⟩ := rank_fold_ok items [] []
    (by simp) (by simp) (fun key _ => rfl) (by simp [joinRankMembers])
  simp only [List.nil_append] at hok hperm
  constructor
  · intro g hg
    have hg2 : g ∈ (items.foldl
        (fun a it => addRankItem a (extract_task_group it.work_name) it) []).map
          formatGroupedRow := by
      have hs := List.perm_insertionSort
        (fun a b : GroupedRow => b.total_hours ≤ a.total_hours)
        ((items.foldl (fun a it => addRankItem a (extract_task_group it.work_name) it) []).map
          formatGroupedRow)
      exact hs.mem_iff.mp hg
    obtain ⟨p, hp, hfmt⟩ := List.mem_map.mp hg2
    obtain ⟨hm, hc, hh, hcost, hq⟩ := hok p hp
    subst hfmt
    have hkeys : ((formatGroupedRow p).group_name, (formatGroupedRow p).normalized_name) = p.1 := by
      simp [formatGroupedRow]
    have hmemperm : (formatGroupedRow p).members.Perm p.2.members := by
      simp only [formatGroupedRow]
      exact List.perm_insertionSort _ _
    have hsum : ((formatGroupedRow p).members.map RankItem.hours).sum =
        ((p.2.members.map RankItem.hours)).sum := (hmemperm.map RankItem.hours).sum_eq
    have hsumc : ((formatGroupedRow p).members.map RankItem.cost).sum =
        ((p.2.members.map RankItem.cost)).sum := (hmemperm.map RankItem.cost).sum_eq
    have hsumq : ((formatGroupedRow p).members.map RankItem.quantity).sum =
        ((p.2.members.map RankItem.quantity)).sum := (hmemperm.map RankItem.quantity).sum_eq
    refine ⟨?_, ?_, ?_, ?_, ?_, ?_, ?_⟩
    · simp only [formatGroupedRow]
      exact List.sorted_insertionSort (fun a b : RankItem => b.hours ≤ a.hours) p.2.members
    · rw [hkeys, ← hm]
      exact hmemperm
    · rw [hkeys, ← hm, ← hc]
      rfl
    · rw [hsum, ← hh]
      rfl
    · rw [hsumc, ← hcost]
      rfl
    · rw [hsumq, ← hq]
      rfl
    · simp only [formatGroupedRow]
      exact (hmemperm.length_eq).symm
  · have hs := List.perm_insertionSort
      (fun a b : GroupedRow => b.total_hours ≤ a.total_hours)
      ((items.foldl (fun a it => addRankItem a (extract_task_group it.work_name) it) []).map
        formatGroupedRow)
    have h1 := (hs.map GroupedRow.members).flatten
    have h2 := flatten_format_perm
      (items.foldl (fun a it => addRankItem a (extract_task_group it.work_name) it) [])
    exact (h1.trans h2).trans hperm

/-- C9 counterexample: with a first member whose category is empty and a
later member carrying category "X", the group's category tag becomes "X",
the category of a later member, not the category of the first member row
encountered for the group (which is empty). -/
theorem ranking_category_cex :
    ((group_ranking_by_task_group
        [⟨"a", 1, 0, 0, ""⟩, ⟨"a", 2, 0, 0, "X"⟩]).map
      (fun g => (g.group_name, g.normalized_name, g.category))) = [("その他", "", "X")] ∧
    ([(⟨"a", 1, 0, 0, ""⟩ : RankItem), ⟨"a", 2, 0, 0, "X"⟩].find?
        (byRankKey ("その他", ""))) = some ⟨"a", 1, 0, 0, ""⟩ ∧
    (⟨"a", (1 : ℚ), 0, 0, ""⟩ : RankItem).category ≠ "X" := by
  have hk : extract_task_group "a" = ("その他", "") := by decide
  refine ⟨?_, by decide, by decide⟩
  simp [group_ranking_by_task_group, hk, addRankItem, updAcc, emptyAcc, formatGroupedRow,
    List.insertionSort, List.orderedInsert]

/-- C9 amended: every output group's member list of group_ranking_by_task_group
is sorted by descending hours, and the group's category tag equals the
category of the first member row in input order whose category is non-empty
(empty when no member has one): an already-set non-empty tag is never
replaced, but an empty tag is filled by the first later member with a
non-empty category. -/
theorem ranking_members_sorted_category (items : List RankItem) (g : GroupedRow)
    (hg : g ∈ group_ranking_by_task_group items) :
    List.Pairwise (fun a b : RankItem => b.hours ≤ a.hours) g.members ∧
    g.category = firstTruthyCategory
      (items.filter (byRankKey (g.group_name, g.normalized_name))) := by
  obtain ⟨h1, h2, h3, h4, h5, h6, h7⟩ := (group_ranking_spec items).1 g hg
  exact ⟨h1, h3⟩

/-- Witness for C9. -/
theorem ranking_members_sorted_category_witness :
    (⟨"対応系", "電話対応", 0, 0, 0, "コア", 1, [⟨"電話対応", 0, 0, 0, "コア"⟩]⟩ : GroupedRow) ∈
      group_ranking_by_task_group [⟨"電話対応", 0, 0, 0, "コア"⟩] ∧
    List.Pairwise (fun a b : RankItem => b.hours ≤ a.hours)
      [(⟨"電話対応", 0, 0, 0, "コア"⟩ : RankItem)] ∧
    ("コア" : String) = firstTruthyCategory
      ([(⟨"電話対応", 0, 0, 0, "コア"⟩ : RankItem)].filter (byRankKey ("対応系", "電話対応"))) := by
  have hout : group_ranking_by_task_group [⟨"電話対応", 0, 0, 0, "コア"⟩] =
      [⟨"対応系", "電話対応", 0, 0, 0, "コア", 1, [⟨"電話対応", 0, 0, 0, "コア"⟩]⟩] := by
    have hk : extract_task_group "電話対応" = ("対応系", "電話対応") := by decide
    simp [group_ranking_by_task_group, hk, addRankItem, updAcc, emptyAcc, formatGroupedRow,
      List.insertionSort, List.orderedInsert, GroupedRow.mk.injEq]
    norm_num [round1, roundHalfEven, ratFloor, Int.fdiv]
  have hmem : (⟨"対応系", "電話対応", 0, 0, 0, "コア", 1,
      [⟨"電話対応", 0, 0, 0, "コア"⟩]⟩ : GroupedRow) ∈
      group_ranking_by_task_group [⟨"電話対応", 0, 0, 0, "コア"⟩] := by
    rw [hout]
    exact List.mem_singleton.mpr rfl
  have h := ranking_members_sorted_category [⟨"電話対応", 0, 0, 0, "コア"⟩]
    ⟨"対応系", "電話対応", 0, 0, 0, "コア", 1, [⟨"電話対応", 0, 0, 0, "コア"⟩]⟩ hmem
  exact ⟨hmem, h.1, h.2⟩

/-- C10: group_ranking_by_task_group conserves its input: every input row
(the empty work name falling into その他 with empty normalized name, last
conjunct) lands in exactly one output group's member list, and each group's
totals re-sum its members exactly, the hour total rounded to one decimal
place. -/
theorem ranking_conservation (items : List RankItem) :
    (((group_ranking_by_task_group items).map GroupedRow.members).flatten).Perm items ∧
    (∀ g ∈ group_ranking_by_task_group items,
      g.total_hours = round1 ((g.members.map RankItem.hours).sum) ∧
      g.total_cost = (g.members.map RankItem.cost).sum ∧
      g.total_quantity = (g.members.map RankItem.quantity).sum ∧
      g.member_count = g.members.length) ∧
    extract_task_group "" = ("その他", "") := by
  refine ⟨(group_ranking_spec items).2, ?_, by decide⟩
  intro g hg
  obtain ⟨h1, h2, h3, h4, h5, h6, h7⟩ := (group_ranking_spec items).1 g hg
  exact ⟨h4, h5, h6, h7⟩

/-- Witness for C10. -/
theorem ranking_conservation_witness :
    (((group_ranking_by_task_group [⟨"電話対応", 2, 5, 1, "コア"⟩]).map
        GroupedRow.members).flatten).Perm [⟨"電話対応", 2, 5, 1, "コア"⟩] ∧
    (⟨"対応系", "電話対応", 2, 5, 1, "コア", 1, [⟨"電話対応", 2, 5, 1, "コア"⟩]⟩ : GroupedRow) ∈
      group_ranking_by_task_group [⟨"電話対応", 2, 5, 1, "コア"⟩] ∧
    ((2 : ℚ) = round1 (([(⟨"電話対応", 2, 5, 1, "コア"⟩ : RankItem)].map RankItem.hours).sum)) := by
  have hout : group_ranking_by_task_group [⟨"電話対応", 2, 5, 1, "コア"⟩] =
      [⟨"対応系", "電話対応", 2, 5, 1, "コア", 1, [⟨"電話対応", 2, 5, 1, "コア"⟩]⟩] := by
    have hk : extract_task_group "電話対応" = ("対応系", "電話対応") := by decide
    simp [group_ranking_by_task_group, hk, addRankItem, updAcc, emptyAcc, formatGroupedRow,
      List.insertionSort, List.orderedInsert, GroupedRow.mk.injEq]
    norm_num [round1, roundHalfEven, ratFloor, Int.fdiv]
  have hmem : (⟨"対応系", "電話対応", 2, 5, 1, "コア", 1,
      [⟨"電話対応", 2, 5, 1, "コア"⟩]⟩ : GroupedRow) ∈
      group_ranking_by_task_group [⟨"電話対応", 2, 5, 1, "コア"⟩] := by
    rw [hout]
    exact List.mem_singleton.mpr rfl
  have h := ranking_conservation [⟨"電話対応", 2, 5, 1, "コア"⟩]
  have h2 := (h.2.1 _ hmem).1
  exact ⟨h.1, hmem, h2⟩

/-- Whitespace discipline of a collapsed string: every whitespace character
is a single ASCII space and no two whitespace characters are adjacent; the
flag records whether the previous character was whitespace. -/
def semiWsF : Bool → List Char → Bool
  | _, [] => true
  | prevSpace, c :: rest =>
    if isPySpace c then !prevSpace && (c == ' ') && semiWsF true rest
    else semiWsF false rest

/-- No leading whitespace character. -/
def noLeadWs : List Char → Bool
  | [] => true
  | c :: _ => !(isPySpace c)

/-- No trailing whitespace character. -/
def noTrailWs : List Char → Bool
  | [] => true
  | [c] => !(isPySpace c)
  | _ :: c :: rest => noTrailWs (c :: rest)

theorem collapseWsAux_semi : ∀ (w : List Char),
    semiWsF false (collapseWsAux false w) = true ∧
    semiWsF true (collapseWsAux true w) = true := by
  intro w
  induction w with
  | nil => exact ⟨rfl, rfl⟩
  | cons c rest ih =>
    by_cases hc : isPySpace c = true
    · have hs : isPySpace ' ' = true := by decide
      constructor
      · simp [collapseWsAux, hc, semiWsF, hs, ih.2]
      · simp [collapseWsAux, hc, ih.2]
    · constructor
      · simp [collapseWsAux, hc, semiWsF, ih.1]
      · simp [collapseWsAux, hc, semiWsF, ih.1]

theorem semiWsF_dropLead : ∀ (l : List Char) (b : Bool),
    semiWsF b l = true → semiWsF false (dropLeadWs l) = true := by
  intro l
  induction l with
  | nil => intro b _; rfl
  | cons c rest ih =>
    intro b h
    by_cases hc : isPySpace c = true
    · simp only [semiWsF, hc, if_true, Bool.and_eq_true] at h
      simp only [dropLeadWs, List.dropWhile_cons, hc, if_true]
      exact ih true h.2
    · simp only [dropLeadWs, List.dropWhile_cons, hc, if_false]
      simp only [semiWsF, hc, if_false] at h ⊢
      exact h

theorem noLead_dropLead : ∀ (l : List Char), noLeadWs (dropLeadWs l) = true := by
  intro l
  induction l with
  | nil => rfl
  | cons c rest ih =>
    by_cases hc : isPySpace c = true
    · simpa [dropLeadWs, List.dropWhile_cons, hc] using ih
    · simp [dropLeadWs, List.dropWhile_cons, hc, noLeadWs]

theorem noTrail_stripTrail : ∀ (l : List Char), noTrailWs (stripTrailWs l) = true := by
  intro l
  induction l with
  | nil => rfl
  | cons c rest ih =>
    simp only [stripTrailWs]
    by_cases he : (stripTrailWs rest).isEmpty && isPySpace c
    · simp [he, noTrailWs]
    · simp only [he, if_false]
      cases hr : stripTrailWs rest with
      | nil =>
        have hc : isPySpace c = false := by
          rw [hr] at he
          simpa [List.isEmpty] using he
        simp [noTrailWs, hc]
      | cons d t =>
        rw [hr] at ih
        simpa [noTrailWs] using ih

theorem semiWsF_stripTrail : ∀ (l : List Char) (b : Bool),
    semiWsF b l = true → semiWsF b (stripTrailWs l) = true := by
  intro l
  induction l with
  | nil => intro b _; rfl
  | cons c rest ih =>
    intro b h
    simp only [stripTrailWs]
    by_cases he : (stripTrailWs rest).isEmpty && isPySpace c
    · simp [he, semiWsF]
    · simp only [he, if_false]
      by_cases hc : isPySpace c = true
      · simp only [semiWsF, hc, if_true, Bool.and_eq_true] at h
        simp only [semiWsF, hc, if_true, Bool.and_eq_true]
        exact ⟨⟨h.1.1, h.1.2⟩, ih true h.2⟩
      · simp only [semiWsF, hc, if_false] at h ⊢
        exact ih false h

theorem noLead_stripTrail : ∀ (l : List Char),
    noLeadWs l = true → noLeadWs (stripTrailWs l) = true := by
  intro l h
  cases l with
  | nil => rfl
  | cons c rest =>
    simp only [stripTrailWs]
    by_cases he : (stripTrailWs rest).isEmpty && isPySpace c
    · simp [he, noLeadWs]
    · simp only [he, if_false]
      simpa [noLeadWs] using h

theorem collapseWsAux_id : ∀ (l : List Char) (b : Bool),
    semiWsF b l = true → collapseWsAux b l = l := by
  intro l
  induction l with
  | nil => intro b _; rfl
  | cons c rest ih =>
    intro b h
    by_cases hc : isPySpace c = true
    · simp only [semiWsF, hc, if_true, Bool.and_eq_true] at h
      obtain ⟨⟨hb, hsp⟩, hrest⟩ := h
      have hb' : b = false := by cases b <;> simp at hb ⊢
      have hc' : c = ' ' := by simpa using hsp
      subst hb'
      subst hc'
      simp only [collapseWsAux, hc, if_true, Bool.false_eq_true, if_false]
      rw [ih true hrest]
    · simp only [collapseWsAux, hc, Bool.false_eq_true, if_false]
      simp only [semiWsF, hc, Bool.false_eq_true, if_false] at h
      rw [ih false h]

theorem dropLead_id (l : List Char) (h : noLeadWs l = true) : dropLeadWs l = l := by
  cases l with
  | nil => rfl
  | cons c rest =>
    simp only [noLeadWs, Bool.not_eq_true'] at h
    simp [dropLeadWs, List.dropWhile_cons, h]

theorem stripTrail_id : ∀ (l : List Char), noTrailWs l = true → stripTrailWs l = l := by
  intro l
  induction l with
  | nil => intro _; rfl
  | cons c rest ih =>
    intro h
    cases rest with
    | nil =>
      simp only [noTrailWs, Bool.not_eq_true'] at h
      simp [stripTrailWs, h]
    | cons d t =>
      have h2 : noTrailWs (d :: t) = true := by simpa [noTrailWs] using h
      have hr := ih h2
      have key : stripTrailWs (c :: d :: t) =
          if (stripTrailWs (d :: t)).isEmpty && isPySpace c then []
          else c :: stripTrailWs (d :: t) := rfl
      rw [key, hr]
      simp

theorem pyStrip_id (l : List Char) (h1 : noLeadWs l = true) (h2 : noTrailWs l = true) :
    pyStripL l = l := by
  unfold pyStripL
  rw [dropLead_id l h1, stripTrail_id l h2]

theorem normOut_canonical (w : List Char) :
    semiWsF false (pyStripL (collapseWs w)) = true ∧
    noLeadWs (pyStripL (collapseWs w)) = true ∧
    noTrailWs (pyStripL (collapseWs w)) = true := by
  have hsemi : semiWsF false (collapseWs w) = true := (collapseWsAux_semi w).1
  have hdl : semiWsF false (dropLeadWs (collapseWs w)) = true := semiWsF_dropLead _ false hsemi
  have hnl : noLeadWs (dropLeadWs (collapseWs w)) = true := noLead_dropLead _
  refine ⟨semiWsF_stripTrail _ false hdl, noLead_stripTrail _ hnl, noTrail_stripTrail _⟩

theorem normOut_strip_id (w : List Char) :
    pyStripL (pyStripL (collapseWs w)) = pyStripL (collapseWs w) := by
  obtain ⟨-, h2, h3⟩ := normOut_canonical w
  exact pyStrip_id _ h2 h3

theorem normOut_collapse_id (w : List Char) :
    collapseWs (pyStripL (collapseWs w)) = pyStripL (collapseWs w) := by
  obtain ⟨h1, -, -⟩ := normOut_canonical w
  exact collapseWsAux_id _ false h1

/-- Whether some opening parenthesis is followed (anywhere later) by a
closing parenthesis, i.e. whether the parenthetical regex could match. -/
def hasPP : List Char → Bool
  | [] => false
  | c :: rest => (isOpenParen c && rest.any isCloseParen) || hasPP rest

theorem findCloser_none_iff (l : List Char) :
    findCloser l = none ↔ l.any isCloseParen = false := by
  induction l with
  | nil => simp [findCloser]
  | cons c rest ih =>
    by_cases hc : isCloseParen c = true
    · simp [findCloser, hc]
    · simp only [Bool.not_eq_true] at hc
      simp [findCloser, hc, ih]

theorem anyClose_false_hasPP (l : List Char) (h : l.any isCloseParen = false) :
    hasPP l = false := by
  induction l with
  | nil => rfl
  | cons c rest ih =>
    simp only [List.any_cons, Bool.or_eq_false_iff] at h
    simp [hasPP, h.2, ih h.2]

theorem hasPP_suffix (a b : List Char) (h : hasPP (a ++ b) = false) : hasPP b = false := by
  induction a with
  | nil => exact h
  | cons c a2 ih =>
    simp only [List.cons_append, hasPP, Bool.or_eq_false_iff] at h
    exact ih h.2

theorem hasPP_prefix (a b : List Char) (h : hasPP (a ++ b) = false) : hasPP a = false := by
  induction a with
  | nil => rfl
  | cons c a2 ih =>
    simp only [List.cons_append, hasPP, Bool.or_eq_false_iff, Bool.and_eq_false_iff] at h ⊢
    refine ⟨?_, ih h.2⟩
    rcases h.1 with h1 | h1
    · exact Or.inl h1
    · right
      by_contra hcon
      simp only [Bool.not_eq_false] at hcon
      simp only [List.append_eq, List.any_append, hcon] at h1
      simp at h1

theorem hasPP_stripParens_aux : ∀ (n : Nat) (l : List Char),
    l.length ≤ n → hasPP (stripParens l) = false := by
  intro n
  induction n with
  | zero =>
    intro l h
    have : l = [] := List.length_eq_zero.mp (Nat.le_zero.mp h)
    subst this
    rfl
  | succ m ih =>
    intro l h
    cases l with
    | nil => rfl
    | cons c rest =>
      rw [stripParens_cons]
      by_cases hc : isOpenParen c = true
      · simp only [hc, if_true]
        cases hf : findCloser rest with
        | some rest2 =>
          have hlen := findCloser_length hf
          have : rest2.length ≤ m := by
            simp only [List.length_cons] at h
            omega
          exact ih rest2 this
        | none =>
          have hany := (findCloser_none_iff rest).mp hf
          simp [hasPP, hany, anyClose_false_hasPP rest hany]
      · simp only [hc, Bool.false_eq_true, if_false]
        have hrest : rest.length ≤ m := by
          simp only [List.length_cons] at h
          omega
        simp [hasPP, hc, ih rest hrest]

theorem hasPP_stripParens (l : List Char) : hasPP (stripParens l) = false :=
  hasPP_stripParens_aux l.length l (Nat.le_refl _)

theorem stripParens_id (l : List Char) (h : hasPP l = false) : stripParens l = l := by
  induction l with
  | nil => rfl
  | cons c rest ih =>
    rw [stripParens_cons]
    simp only [hasPP, Bool.or_eq_false_iff, Bool.and_eq_false_iff] at h
    by_cases hc : isOpenParen c = true
    · simp only [hc, if_true]
      have hany : rest.any isCloseParen = false := by
        rcases h.1 with h1 | h1
        · rw [hc] at h1; cases h1
        · exact h1
      rw [(findCloser_none_iff rest).mpr hany]
    · simp only [hc, Bool.false_eq_true, if_false]
      rw [ih h.2]

theorem dropTrailLetter_prefix (cs : List Char) : ∃ t, cs = dropTrailLetter cs ++ t := by
  unfold dropTrailLetter
  cases hr : cs.reverse with
  | nil => exact ⟨[], by simp⟩
  | cons c rest =>
    by_cases hl : isRegexLetter c = true
    · simp only [hl, if_true]
      have hsfx : rest.dropWhile isPySpace <:+ cs.reverse := by
        rw [hr]
        exact (List.dropWhile_suffix isPySpace).trans (List.suffix_cons c rest)
      have hpre : (rest.dropWhile isPySpace).reverse <+: cs := by
        have h2 : (rest.dropWhile isPySpace).reverse <+: cs.reverse.reverse :=
          List.reverse_prefix.mpr (by simpa using hsfx)
        simpa using h2
      obtain ⟨t, ht⟩ := hpre
      exact ⟨t, ht.symm⟩
    · simp only [hl, Bool.false_eq_true, if_false]
      exact ⟨[], by simp⟩

theorem dropTrailNum_prefix (cs : List Char) : ∃ t, cs = dropTrailNum cs ++ t := by
  unfold dropTrailNum
  by_cases h0 : ((cs.reverse.takeWhile isPyDigit).length == 0) = true
  · simp only [h0, if_true]
    exact ⟨[], by simp⟩
  · simp only [h0, Bool.false_eq_true, if_false]
    by_cases h2 : (cs.reverse.takeWhile isPyDigit).length ≤ 2
    · simp only [h2, if_true]
      have hsfx : (cs.reverse.drop ((cs.reverse.takeWhile isPyDigit).length)).dropWhile isPySpace
          <:+ cs.reverse :=
        (List.dropWhile_suffix isPySpace).trans (List.drop_suffix _ _)
      have hpre := List.reverse_prefix.mpr hsfx
      rw [List.reverse_reverse] at hpre
      obtain ⟨t, ht⟩ := hpre
      exact ⟨t, ht.symm⟩
    · simp only [h2, if_false]
      have hsfx : cs.reverse.drop 2 <:+ cs.reverse := List.drop_suffix _ _
      have hpre := List.reverse_prefix.mpr hsfx
      rw [List.reverse_reverse] at hpre
      obtain ⟨t, ht⟩ := hpre
      exact ⟨t, ht.symm⟩

theorem stripTrailWs_prefix (cs : List Char) : ∃ t, cs = stripTrailWs cs ++ t := by
  induction cs with
  | nil => exact ⟨[], rfl⟩
  | cons c rest ih =>
    simp only [stripTrailWs]
    by_cases he : (stripTrailWs rest).isEmpty && isPySpace c
    · simp only [he, if_true]
      exact ⟨c :: rest, rfl⟩
    · simp only [he, Bool.false_eq_true, if_false]
      obtain ⟨t, ht⟩ := ih
      refine ⟨t, ?_⟩
      rw [List.cons_append]
      exact congrArg (c :: ·) ht

theorem any_false_of_sublist {p : Char → Bool} {l2 l : List Char} (hs : l2.Sublist l)
    (h : l.any p = false) : l2.any p = false := by
  by_contra hcon
  simp only [Bool.not_eq_false, List.any_eq_true] at hcon
  obtain ⟨x, hx, hpx⟩ := hcon
  have : l.any p = true := List.any_eq_true.mpr ⟨x, hs.subset hx, hpx⟩
  rw [this] at h
  cases h

theorem anyClose_repl_aux : ∀ (n : Nat) (key rep cs : List Char), cs.length ≤ n →
    cs.any isCloseParen = false → rep.any isCloseParen = false →
    (repl key rep cs).any isCloseParen = false := by
  intro n
  induction n with
  | zero =>
    intro key rep cs h _ _
    have : cs = [] := List.length_eq_zero.mp (Nat.le_zero.mp h)
    subst this
    rfl
  | succ m ih =>
    intro key rep cs h hcs hrep
    cases cs with
    | nil => rfl
    | cons c rest =>
      rw [repl_cons]
      simp only [List.any_cons, Bool.or_eq_false_iff] at hcs
      have hrest : rest.length ≤ m := by simp at h; omega
      by_cases he : key.isEmpty
      · simp only [he, if_true, List.any_cons, hcs.1]
        simp [ih key rep rest hrest hcs.2 hrep]
      · simp only [he, Bool.false_eq_true, if_false]
        by_cases hst : startsWithL key (c :: rest) = true
        · simp only [hst, if_true, List.any_append, hrep]
          have hdrop : ((c :: rest).drop key.length).any isCloseParen = false :=
            any_false_of_sublist (List.drop_suffix _ _).sublist
              (by simp [List.any_cons, hcs.1, hcs.2])
          have hk1 : 1 ≤ key.length := by
            cases key with
            | nil => simp [List.isEmpty] at he
            | cons a b => simp
          have hlen : ((c :: rest).drop key.length).length ≤ m := by
            simp only [List.length_drop, List.length_cons]
            simp only [List.length_cons] at h
            omega
          simp [ih key rep _ hlen hdrop hrep]
        · simp only [hst, Bool.false_eq_true, if_false, List.any_cons, hcs.1]
          simp [ih key rep rest hrest hcs.2 hrep]

theorem hasPP_append_openfree (a t : List Char)
    (ha : ∀ c ∈ a, isOpenParen c = false) (h : hasPP t = false) : hasPP (a ++ t) = false := by
  induction a with
  | nil => exact h
  | cons c a2 ih =>
    simp only [List.cons_append, hasPP, Bool.or_eq_false_iff, Bool.and_eq_false_iff]
    refine ⟨Or.inl (ha c (List.mem_cons_self _ _)), ih (fun d hd => ha d (List.mem_cons_of_mem _ hd))⟩

theorem hasPP_repl_aux : ∀ (n : Nat) (key rep cs : List Char), cs.length ≤ n →
    hasPP cs = false →
    (∀ c ∈ rep, isOpenParen c = false) → rep.any isCloseParen = false →
    hasPP (repl key rep cs) = false := by
  intro n
  induction n with
  | zero =>
    intro key rep cs h _ _ _
    have : cs = [] := List.length_eq_zero.mp (Nat.le_zero.mp h)
    subst this
    rfl
  | succ m ih =>
    intro key rep cs h hcs hro hrc
    cases cs with
    | nil => rfl
    | cons c rest =>
      rw [repl_cons]
      simp only [hasPP, Bool.or_eq_false_iff, Bool.and_eq_false_iff] at hcs
      have hrest : rest.length ≤ m := by simp at h; omega
      have hrestAny : isOpenParen c = true → rest.any isCloseParen = false := by
        intro hoc
        rcases hcs.1 with h1 | h1
        · rw [hoc] at h1; cases h1
        · exact h1
      have tailcase : hasPP (c :: repl key rep rest) = false := by
        simp only [hasPP, Bool.or_eq_false_iff, Bool.and_eq_false_iff]
        constructor
        · by_cases hoc : isOpenParen c = true
          · exact Or.inr (anyClose_repl_aux m key rep rest hrest (hrestAny hoc) hrc)
          · exact Or.inl (by simpa using hoc)
        · exact ih key rep rest hrest hcs.2 hro hrc
      by_cases he : key.isEmpty
      · simpa [he] using tailcase
      · simp only [he, Bool.false_eq_true, if_false]
        by_cases hst : startsWithL key (c :: rest) = true
        · simp only [hst, if_true]
          refine hasPP_append_openfree rep _ hro ?_
          have hdrop : hasPP ((c :: rest).drop key.length) = false := by
            have hdecomp := List.take_append_drop key.length (c :: rest)
            refine hasPP_suffix ((c :: rest).take key.length) _ ?_
            rw [hdecomp]
            simp only [hasPP, Bool.or_eq_false_iff, Bool.and_eq_false_iff]
            exact ⟨hcs.1, hcs.2⟩
          have hk1 : 1 ≤ key.length := by
            cases key with
            | nil => simp [List.isEmpty] at he
            | cons a b => simp
          have hlen : ((c :: rest).drop key.length).length ≤ m := by
            simp only [List.length_drop, List.length_cons]
            simp only [List.length_cons] at h
            omega
          exact ih key rep _ hlen hdrop hro hrc
        · simpa [hst] using tailcase

theorem anyClose_collapse : ∀ (l : List Char) (b : Bool),
    l.any isCloseParen = false → (collapseWsAux b l).any isCloseParen = false := by
  intro l
  induction l with
  | nil => intro b _; rfl
  | cons c rest ih =>
    intro b h
    simp only [List.any_cons, Bool.or_eq_false_iff] at h
    by_cases hc : isPySpace c = true
    · cases b with
      | true => simpa [collapseWsAux, hc] using ih true h.2
      | false =>
        simp only [collapseWsAux, hc, if_true, Bool.false_eq_true, if_false, List.any_cons]
        have : isCloseParen ' ' = false := by decide
        simp [this, ih true h.2]
    · simp only [collapseWsAux, hc, Bool.false_eq_true, if_false, List.any_cons, h.1]
      simp [ih false h.2]

theorem hasPP_collapse : ∀ (l : List Char) (b : Bool),
    hasPP l = false → hasPP (collapseWsAux b l) = false := by
  intro l
  induction l with
  | nil => intro b _; rfl
  | cons c rest ih =>
    intro b h
    simp only [hasPP, Bool.or_eq_false_iff, Bool.and_eq_false_iff] at h
    by_cases hc : isPySpace c = true
    · cases b with
      | true => simpa [collapseWsAux, hc] using ih true h.2
      | false =>
        simp only [collapseWsAux, hc, if_true, Bool.false_eq_true, if_false]
        simp only [hasPP, Bool.or_eq_false_iff, Bool.and_eq_false_iff]
        have : isOpenParen ' ' = false := by decide
        exact ⟨Or.inl this, ih true h.2⟩
    · simp only [collapseWsAux, hc, Bool.false_eq_true, if_false]
      simp only [hasPP, Bool.or_eq_false_iff, Bool.and_eq_false_iff]
      constructor
      · by_cases hoc : isOpenParen c = true
        · refine Or.inr (anyClose_collapse rest false ?_)
          rcases h.1 with h1 | h1
          · rw [hoc] at h1; cases h1
          · exact h1
        · exact Or.inl (by simpa using hoc)
      · exact ih false h.2

theorem contains_of_startsWith (k l : List Char) (h : startsWithL k l = true) :
    containsSub k l = true := by
  cases l with
  | nil =>
    cases k with
    | nil => rfl
    | cons a b => simp [startsWithL] at h
  | cons c rest => simp [containsSub, h]

theorem startsWith_append_ext (k l b : List Char) (h : startsWithL k l = true) :
    startsWithL k (l ++ b) = true := by
  induction k generalizing l with
  | nil => rfl
  | cons kh kt ih =>
    cases l with
    | nil => simp [startsWithL] at h
    | cons c rest =>
      simp only [startsWithL, Bool.and_eq_true] at h
      simp only [List.cons_append, startsWithL, Bool.and_eq_true]
      exact ⟨h.1, ih rest h.2⟩

theorem contains_append_right (k a b : List Char) (h : containsSub k b = true) :
    containsSub k (a ++ b) = true := by
  induction a with
  | nil => exact h
  | cons c a2 ih => simp [containsSub, ih]

theorem contains_append_left (k a b : List Char) (h : containsSub k a = true) :
    containsSub k (a ++ b) = true := by
  induction a with
  | nil =>
    simp only [containsSub, List.isEmpty_iff] at h
    subst h
    cases b with
    | nil => rfl
    | cons c rest => simp [containsSub, startsWithL]
  | cons c a2 ih =>
    simp only [containsSub, Bool.or_eq_true] at h
    rcases h with h | h
    · simp only [List.cons_append, containsSub, Bool.or_eq_true]
      exact Or.inl (startsWith_append_ext k (c :: a2) b h)
    · simp [containsSub, ih h]

theorem contains_append_disjoint (k a b : List Char) (hk : k ≠ [])
    (ha : ∀ c ∈ a, c ∉ k) (h : containsSub k (a ++ b) = true) : containsSub k b = true := by
  induction a with
  | nil => exact h
  | cons c a2 ih =>
    simp only [List.cons_append, containsSub, Bool.or_eq_true] at h
    rcases h with h | h
    · exfalso
      cases k with
      | nil => exact hk rfl
      | cons kh kt =>
        simp only [startsWithL, Bool.and_eq_true, beq_iff_eq] at h
        exact ha c (List.mem_cons_self _ _) (h.1 ▸ List.mem_cons_self _ _)
    · exact ih (fun d hd => ha d (List.mem_cons_of_mem _ hd)) h

theorem startsWith_repl_aux : ∀ (n : Nat) (key rep cs k2 : List Char), cs.length ≤ n →
    (∀ c ∈ rep, c ∉ k2) → rep ≠ [] →
    startsWithL k2 (repl key rep cs) = true → startsWithL k2 cs = true := by
  intro n
  induction n with
  | zero =>
    intro key rep cs k2 h _ _ hs
    have : cs = [] := List.length_eq_zero.mp (Nat.le_zero.mp h)
    subst this
    exact hs
  | succ m ih =>
    intro key rep cs k2 h hdisj hrep hs
    cases cs with
    | nil => exact hs
    | cons c rest =>
      rw [repl_cons] at hs
      have hrest : rest.length ≤ m := by simp at h; omega
      by_cases he : key.isEmpty
      · simp only [he, if_true] at hs
        cases k2 with
        | nil => rfl
        | cons kh kt =>
          simp only [startsWithL, Bool.and_eq_true] at hs ⊢
          exact ⟨hs.1, ih key rep rest kt hrest
            (fun d hd hdk => hdisj d hd (List.mem_cons_of_mem _ hdk)) hrep hs.2⟩
      · simp only [he, Bool.false_eq_true, if_false] at hs
        by_cases hst : startsWithL key (c :: rest) = true
        · simp only [hst, if_true] at hs
          cases k2 with
          | nil => rfl
          | cons kh kt =>
            exfalso
            cases hrepc : rep with
            | nil => exact hrep hrepc
            | cons rh rt =>
              rw [hrepc] at hs
              simp only [List.cons_append, startsWithL, Bool.and_eq_true, beq_iff_eq] at hs
              refine hdisj rh ?_ ?_
              · rw [hrepc]; exact List.mem_cons_self _ _
              · rw [← hs.1]; exact List.mem_cons_self _ _
        · simp only [hst, Bool.false_eq_true, if_false] at hs
          cases k2 with
          | nil => rfl
          | cons kh kt =>
            simp only [startsWithL, Bool.and_eq_true] at hs ⊢
            exact ⟨hs.1, ih key rep rest kt hrest
              (fun d hd hdk => hdisj d hd (List.mem_cons_of_mem _ hdk)) hrep hs.2⟩

theorem contains_repl_aux : ∀ (n : Nat) (key rep cs k2 : List Char), cs.length ≤ n →
    k2 ≠ [] → (∀ c ∈ rep, c ∉ k2) → rep ≠ [] →
    containsSub k2 (repl key rep cs) = true → containsSub k2 cs = true := by
  intro n
  induction n with
  | zero =>
    intro key rep cs k2 h _ _ _ hc
    have : cs = [] := List.length_eq_zero.mp (Nat.le_zero.mp h)
    subst this
    exact hc
  | succ m ih =>
    intro key rep cs k2 h hk2 hdisj hrep hc
    cases cs with
    | nil => exact hc
    | cons c rest =>
      rw [repl_cons] at hc
      have hrest : rest.length ≤ m := by simp at h; omega
      have tailcase : containsSub k2 (c :: repl key rep rest) = true →
          containsSub k2 (c :: rest) = true := by
        intro htl
        simp only [containsSub, Bool.or_eq_true] at htl ⊢
        rcases htl with htl | htl
        · cases k2 with
          | nil => exact absurd rfl hk2
          | cons kh kt =>
            simp only [startsWithL, Bool.and_eq_true] at htl
            by_cases hkt : kt = []
            · subst hkt
              exact Or.inl (by simp [startsWithL, htl.1])
            · left
              simp only [startsWithL, Bool.and_eq_true]
              refine ⟨htl.1, ?_⟩
              exact startsWith_repl_aux m key rep rest kt hrest
                (fun d hd hdk => hdisj d hd (List.mem_cons_of_mem _ hdk)) hrep htl.2
        · exact Or.inr (ih key rep rest k2 hrest hk2 hdisj hrep htl)
      by_cases he : key.isEmpty
      · simp only [he, if_true] at hc
        exact tailcase hc
      · simp only [he, Bool.false_eq_true, if_false] at hc
        by_cases hst : startsWithL key (c :: rest) = true
        · simp only [hst, if_true] at hc
          have hY := contains_append_disjoint k2 rep _ hk2 hdisj hc
          have hk1 : 1 ≤ key.length := by
            cases key with
            | nil => simp [List.isEmpty] at he
            | cons a b => simp
          have hlen : ((c :: rest).drop key.length).length ≤ m := by
            simp only [List.length_drop, List.length_cons]
            simp only [List.length_cons] at h
            omega
          have hdropc := ih key rep _ k2 hlen hk2 hdisj hrep hY
          have hdecomp := List.take_append_drop key.length (c :: rest)
          rw [← hdecomp]
          exact contains_append_right k2 _ _ hdropc
        · simp only [hst, Bool.false_eq_true, if_false] at hc
          exact tailcase hc

theorem repl_removes_aux : ∀ (n : Nat) (key rep cs : List Char), cs.length ≤ n →
    key ≠ [] → rep ≠ [] → (∀ c ∈ rep, c ∉ key) →
    containsSub key (repl key rep cs) = false := by
  intro n
  induction n with
  | zero =>
    intro key rep cs h hk _ _
    have : cs = [] := List.length_eq_zero.mp (Nat.le_zero.mp h)
    subst this
    simpa [containsSub, List.isEmpty_iff] using hk
  | succ m ih =>
    intro key rep cs h hk hrep hdisj
    cases cs with
    | nil => simpa [containsSub, List.isEmpty_iff] using hk
    | cons c rest =>
      rw [repl_cons]
      have hrest : rest.length ≤ m := by simp at h; omega
      have hempty : key.isEmpty = false := by
        cases key with
        | nil => exact absurd rfl hk
        | cons a b => rfl
      simp only [hempty, Bool.false_eq_true, if_false]
      by_cases hst : startsWithL key (c :: rest) = true
      · simp only [hst, if_true]
        by_contra hcon
        simp only [Bool.not_eq_false] at hcon
        have hY := contains_append_disjoint key rep _ hk hdisj hcon
        have hk1 : 1 ≤ key.length := by
          cases key with
          | nil => exact absurd rfl hk
          | cons a b => simp
        have hlen : ((c :: rest).drop key.length).length ≤ m := by
          simp only [List.length_drop, List.length_cons]
          simp only [List.length_cons] at h
          omega
        have := ih key rep _ hlen hk hrep hdisj
        rw [hY] at this
        cases this
      · simp only [hst, Bool.false_eq_true, if_false]
        by_contra hcon
        simp only [Bool.not_eq_false, containsSub, Bool.or_eq_true] at hcon
        rcases hcon with hcon | hcon
        · cases key with
          | nil => exact hk rfl
          | cons kh kt =>
            simp only [startsWithL, Bool.and_eq_true] at hcon
            by_cases hkt : kt = []
            · subst hkt
              refine hst ?_
              simp [startsWithL, hcon.1]
            · have := startsWith_repl_aux m (kh :: kt) rep rest kt hrest
                (fun d hd hdk => hdisj d hd (List.mem_cons_of_mem _ hdk)) hrep hcon.2
              refine hst ?_
              simp only [startsWithL, Bool.and_eq_true]
              exact ⟨hcon.1, this⟩
        · have := ih key rep rest hrest hk hrep hdisj
          rw [hcon] at this
          cases this

theorem repl_id (key rep cs : List Char) (hk : key ≠ [])
    (h : containsSub key cs = false) : repl key rep cs = cs := by
  induction cs with
  | nil => rfl
  | cons c rest ih =>
    rw [repl_cons]
    have hempty : key.isEmpty = false := by
      cases key with
      | nil => exact absurd rfl hk
      | cons a b => rfl
    simp only [hempty, Bool.false_eq_true, if_false]
    simp only [containsSub, Bool.or_eq_false_iff] at h
    simp only [h.1, Bool.false_eq_true, if_false]
    rw [ih h.2]

theorem startsWith_collapse (l : List Char) : ∀ (k2 : List Char),
    (∀ c ∈ k2, isPySpace c = false) →
    startsWithL k2 (collapseWsAux false l) = true → startsWithL k2 l = true := by
  induction l with
  | nil => intro k2 _ h; exact h
  | cons c rest ih =>
    intro k2 hws h
    by_cases hc : isPySpace c = true
    · cases k2 with
      | nil => rfl
      | cons kh kt =>
        exfalso
        simp only [collapseWsAux, hc, if_true, Bool.false_eq_true, if_false] at h
        simp only [startsWithL, Bool.and_eq_true, beq_iff_eq] at h
        have := hws kh (List.mem_cons_self _ _)
        rw [h.1] at this
        exact absurd this (by decide)
    · simp only [collapseWsAux, hc, Bool.false_eq_true, if_false] at h
      cases k2 with
      | nil => rfl
      | cons kh kt =>
        simp only [startsWithL, Bool.and_eq_true] at h ⊢
        exact ⟨h.1, ih kt (fun d hd => hws d (List.mem_cons_of_mem _ hd)) h.2⟩

theorem contains_collapse : ∀ (l : List Char) (b : Bool) (k2 : List Char),
    k2 ≠ [] → (∀ c ∈ k2, isPySpace c = false) →
    containsSub k2 (collapseWsAux b l) = true → containsSub k2 l = true := by
  intro l
  induction l with
  | nil => intro b k2 _ _ h; exact h
  | cons c rest ih =>
    intro b k2 hk2 hws h
    by_cases hc : isPySpace c = true
    · have hrec : containsSub k2 (collapseWsAux true rest) = true →
          containsSub k2 (c :: rest) = true := by
        intro h2
        simp only [containsSub, Bool.or_eq_true]
        exact Or.inr (ih true k2 hk2 hws h2)
      cases b with
      | true =>
        simp only [collapseWsAux, hc, if_true] at h
        exact hrec h
      | false =>
        simp only [collapseWsAux, hc, if_true, Bool.false_eq_true, if_false] at h
        simp only [containsSub, Bool.or_eq_true] at h
        rcases h with h | h
        · exfalso
          cases k2 with
          | nil => exact hk2 rfl
          | cons kh kt =>
            simp only [startsWithL, Bool.and_eq_true, beq_iff_eq] at h
            have := hws kh (List.mem_cons_self _ _)
            rw [h.1] at this
            exact absurd this (by decide)
        · exact hrec h
    · simp only [collapseWsAux, hc, Bool.false_eq_true, if_false] at h
      simp only [containsSub, Bool.or_eq_true] at h ⊢
      rcases h with h | h
      · cases k2 with
        | nil => exact absurd rfl hk2
        | cons kh kt =>
          simp only [startsWithL, Bool.and_eq_true] at h ⊢
          exact Or.inl ⟨h.1,
            startsWith_collapse rest kt (fun d hd => hws d (List.mem_cons_of_mem _ hd)) h.2⟩
      · exact Or.inr (ih false k2 hk2 hws h)

theorem contains_pyStrip (l k2 : List Char) (h : containsSub k2 (pyStripL l) = true) :
    containsSub k2 l = true := by
  unfold pyStripL at h
  obtain ⟨t, ht⟩ := stripTrailWs_prefix (dropLeadWs l)
  have h2 : containsSub k2 (dropLeadWs l) = true := by
    rw [ht]
    exact contains_append_left k2 _ t h
  have hdecomp : l.takeWhile isPySpace ++ dropLeadWs l = l := by
    show l.takeWhile isPySpace ++ l.dropWhile isPySpace = l
    exact List.takeWhile_append_dropWhile isPySpace l
  rw [← hdecomp]
  exact contains_append_right k2 _ _ h2

theorem fold_repl_preserve (tbl : List (List Char × List Char)) : ∀ (w k2 : List Char),
    k2 ≠ [] →
    (∀ kv ∈ tbl, kv.2 ≠ [] ∧ ∀ c ∈ kv.2, c ∉ k2) →
    containsSub k2 w = false →
    containsSub k2 (tbl.foldl (fun acc p => repl p.1 p.2 acc) w) = false := by
  induction tbl with
  | nil => intro w k2 _ _ hw; exact hw
  | cons p0 rest ih =>
    intro w k2 hk2 hcond hw
    simp only [List.foldl_cons]
    have hw2 : containsSub k2 (repl p0.1 p0.2 w) = false := by
      by_contra hcon
      simp only [Bool.not_eq_false] at hcon
      have := contains_repl_aux w.length p0.1 p0.2 w k2 (Nat.le_refl _) hk2
        (hcond p0 (List.mem_cons_self _ _)).2 (hcond p0 (List.mem_cons_self _ _)).1 hcon
      rw [hw] at this
      cases this
    exact ih (repl p0.1 p0.2 w) k2 hk2
      (fun kv hkv => hcond kv (List.mem_cons_of_mem _ hkv)) hw2

theorem fold_repl_removes (tbl : List (List Char × List Char)) : ∀ (w : List Char),
    (∀ kv ∈ tbl, kv.1 ≠ [] ∧ kv.2 ≠ []) →
    (∀ kv ∈ tbl, ∀ kv2 ∈ tbl, ∀ c ∈ kv2.2, c ∉ kv.1) →
    ∀ kv ∈ tbl, containsSub kv.1 (tbl.foldl (fun acc p => repl p.1 p.2 acc) w) = false := by
  induction tbl with
  | nil => intro w _ _ kv hkv; simp at hkv
  | cons p0 rest ih =>
    intro w hful hdisj kv hkv
    simp only [List.foldl_cons]
    rcases List.mem_cons.mp hkv with he | he
    · subst he
      have h0 : containsSub kv.1 (repl kv.1 kv.2 w) = false :=
        repl_removes_aux w.length kv.1 kv.2 w (Nat.le_refl _)
          (hful kv (List.mem_cons_self _ _)).1 (hful kv (List.mem_cons_self _ _)).2
          (hdisj kv (List.mem_cons_self _ _) kv (List.mem_cons_self _ _))
      exact fold_repl_preserve rest (repl kv.1 kv.2 w) kv.1
        (hful kv (List.mem_cons_self _ _)).1
        (fun kv2 hkv2 => ⟨(hful kv2 (List.mem_cons_of_mem _ hkv2)).2,
          hdisj kv (List.mem_cons_self _ _) kv2 (List.mem_cons_of_mem _ hkv2)⟩)
        h0
    · exact ih (repl p0.1 p0.2 w)
        (fun kv2 hkv2 => hful kv2 (List.mem_cons_of_mem _ hkv2))
        (fun kv2 hkv2 kv3 hkv3 =>
          hdisj kv2 (List.mem_cons_of_mem _ hkv2) kv3 (List.mem_cons_of_mem _ hkv3))
        kv he

theorem fold_repl_id (tbl : List (List Char × List Char)) : ∀ (cs : List Char),
    (∀ kv ∈ tbl, kv.1 ≠ []) →
    (∀ kv ∈ tbl, containsSub kv.1 cs = false) →
    tbl.foldl (fun acc p => repl p.1 p.2 acc) cs = cs := by
  induction tbl with
  | nil => intro cs _ _; rfl
  | cons p0 rest ih =>
    intro cs hne habs
    simp only [List.foldl_cons]
    rw [repl_id p0.1 p0.2 cs (hne p0 (List.mem_cons_self _ _)) (habs p0 (List.mem_cons_self _ _))]
    exact ih cs (fun kv hkv => hne kv (List.mem_cons_of_mem _ hkv))
      (fun kv hkv => habs kv (List.mem_cons_of_mem _ hkv))

theorem fold_repl_hasPP (tbl : List (List Char × List Char)) : ∀ (cs : List Char),
    (∀ kv ∈ tbl, (∀ c ∈ kv.2, isOpenParen c = false) ∧ kv.2.any isCloseParen = false) →
    hasPP cs = false →
    hasPP (tbl.foldl (fun acc p => repl p.1 p.2 acc) cs) = false := by
  induction tbl with
  | nil => intro cs _ h; exact h
  | cons p0 rest ih =>
    intro cs hcond h
    simp only [List.foldl_cons]
    exact ih (repl p0.1 p0.2 cs)
      (fun kv hkv => hcond kv (List.mem_cons_of_mem _ hkv))
      (hasPP_repl_aux cs.length p0.1 p0.2 cs (Nat.le_refl _) h
        (hcond p0 (List.mem_cons_self _ _)).1 (hcond p0 (List.mem_cons_self _ _)).2)

theorem applyAbbrevs_no_keys (w : List Char) :
    ∀ kv ∈ abbreviationTable, containsSub kv.1 (applyAbbrevs w) = false :=
  fold_repl_removes abbreviationTable w (by decide) (by decide)

theorem applyAbbrevs_id (cs : List Char)
    (h : ∀ kv ∈ abbreviationTable, containsSub kv.1 cs = false) : applyAbbrevs cs = cs :=
  fold_repl_id abbreviationTable cs (by decide) h

theorem hasPP_applyAbbrevs (cs : List Char) (h : hasPP cs = false) :
    hasPP (applyAbbrevs cs) = false :=
  fold_repl_hasPP abbreviationTable cs (by decide) h

theorem dropTrailLetter_id (cs : List Char)
    (h : ∀ c, cs.getLast? = some c → isRegexLetter c = false) : dropTrailLetter cs = cs := by
  unfold dropTrailLetter
  cases hr : cs.reverse with
  | nil => rfl
  | cons c rest =>
    have hlast : cs.getLast? = some c := by
      rw [← List.head?_reverse, hr]
      rfl
    simp [h c hlast]

theorem dropTrailNum_id (cs : List Char)
    (h : ∀ c, cs.getLast? = some c → isPyDigit c = false) : dropTrailNum cs = cs := by
  have hk : cs.reverse.takeWhile isPyDigit = [] := by
    cases hr : cs.reverse with
    | nil => rfl
    | cons c rest =>
      have hlast : cs.getLast? = some c := by
        rw [← List.head?_reverse, hr]
        rfl
      simp [List.takeWhile_cons, h c hlast]
  simp only [dropTrailNum, hk]
  simp

theorem hasPP_normalizeL (w : List Char) : hasPP (normalizeL w) = false := by
  have h2 : hasPP (stripParens (pyStripL w)) = false := hasPP_stripParens _
  obtain ⟨t3, ht3⟩ := dropTrailLetter_prefix (stripParens (pyStripL w))
  have h3 : hasPP (dropTrailLetter (stripParens (pyStripL w))) = false :=
    hasPP_prefix _ t3 (by rw [← ht3]; exact h2)
  obtain ⟨t4, ht4⟩ := dropTrailNum_prefix (dropTrailLetter (stripParens (pyStripL w)))
  have h4 : hasPP (dropTrailNum (dropTrailLetter (stripParens (pyStripL w)))) = false :=
    hasPP_prefix _ t4 (by rw [← ht4]; exact h3)
  have h5 := hasPP_applyAbbrevs _ h4
  have h6 : hasPP (collapseWs (applyAbbrevs
      (dropTrailNum (dropTrailLetter (stripParens (pyStripL w)))))) = false :=
    hasPP_collapse _ false h5
  have h7 : hasPP (dropLeadWs (collapseWs (applyAbbrevs
      (dropTrailNum (dropTrailLetter (stripParens (pyStripL w))))))) = false := by
    refine hasPP_suffix ((collapseWs (applyAbbrevs
      (dropTrailNum (dropTrailLetter (stripParens (pyStripL w)))))).takeWhile isPySpace) _ ?_
    rw [show (collapseWs (applyAbbrevs (dropTrailNum
        (dropTrailLetter (stripParens (pyStripL w)))))).takeWhile isPySpace ++
        dropLeadWs (collapseWs (applyAbbrevs (dropTrailNum
        (dropTrailLetter (stripParens (pyStripL w)))))) =
        collapseWs (applyAbbrevs (dropTrailNum
        (dropTrailLetter (stripParens (pyStripL w))))) from
      List.takeWhile_append_dropWhile isPySpace _]
    exact h6
  obtain ⟨t8, ht8⟩ := stripTrailWs_prefix (dropLeadWs (collapseWs (applyAbbrevs
      (dropTrailNum (dropTrailLetter (stripParens (pyStripL w)))))))
  refine hasPP_prefix _ t8 ?_
  show hasPP (stripTrailWs (dropLeadWs (collapseWs (applyAbbrevs
      (dropTrailNum (dropTrailLetter (stripParens (pyStripL w))))))) ++ t8) = false
  rw [← ht8]
  exact h7

theorem keys_absent_normalizeL (w : List Char) :
    ∀ kv ∈ abbreviationTable, containsSub kv.1 (normalizeL w) = false := by
  intro kv hkv
  have hy5 := applyAbbrevs_no_keys
    (dropTrailNum (dropTrailLetter (stripParens (pyStripL w)))) kv hkv
  have hside : kv.1 ≠ [] ∧ ∀ c ∈ kv.1, isPySpace c = false := by
    have : ∀ kv2 ∈ abbreviationTable, kv2.1 ≠ [] ∧ ∀ c ∈ kv2.1, isPySpace c = false := by
      decide
    exact this kv hkv
  by_contra hcon
  simp only [Bool.not_eq_false] at hcon
  have hc1 := contains_pyStrip _ kv.1 hcon
  have hc2 := contains_collapse _ false kv.1 hside.1 hside.2 hc1
  rw [hy5] at hc2
  cases hc2

theorem normalizeL_idem (w : List Char)
    (hL : ∀ c, (normalizeL w).getLast? = some c → isRegexLetter c = false)
    (hD : ∀ c, (normalizeL w).getLast? = some c → isPyDigit c = false) :
    normalizeL (normalizeL w) = normalizeL w := by
  have h_strip : pyStripL (normalizeL w) = normalizeL w :=
    normOut_strip_id (applyAbbrevs (dropTrailNum (dropTrailLetter (stripParens (pyStripL w)))))
  have h_col : collapseWs (normalizeL w) = normalizeL w :=
    normOut_collapse_id (applyAbbrevs (dropTrailNum (dropTrailLetter (stripParens (pyStripL w)))))
  have h_pp : hasPP (normalizeL w) = false := hasPP_normalizeL w
  have h_sp : stripParens (normalizeL w) = normalizeL w := stripParens_id _ h_pp
  have h_L : dropTrailLetter (normalizeL w) = normalizeL w := dropTrailLetter_id _ hL
  have h_D : dropTrailNum (normalizeL w) = normalizeL w := dropTrailNum_id _ hD
  have h_ab : applyAbbrevs (normalizeL w) = normalizeL w :=
    applyAbbrevs_id _ (keys_absent_normalizeL w)
  show pyStripL (collapseWs (applyAbbrevs (dropTrailNum (dropTrailLetter
      (stripParens (pyStripL (normalizeL w))))))) = normalizeL w
  rw [h_strip, h_sp, h_L, h_D, h_ab, h_col]
  exact h_strip

theorem toList_mk (X : List Char) : (String.mk X).toList = X := rfl

/-- Whether the last character is a letter (as matched by the trailing
letter regex) or a decimal digit. -/
def endsInLetterOrDigit (s : String) : Bool :=
  match s.toList.getLast? with
  | some c => isRegexLetter c || isPyDigit c
  | none => false

/-- C2 amended: normalization is idempotent on every input whose normalized
form does not end in an ASCII/full-width letter or a decimal digit; when
the normalized form ends in such a character the trailing-letter or
trailing-number strip can fire again on a second application (the
counterexample), which is the only deviation from the original claim. -/
theorem normalize_idempotent_amended (x : String)
    (h : endsInLetterOrDigit (normalize_work_name x) = false) :
    normalize_work_name (normalize_work_name x) = normalize_work_name x := by
  by_cases hx : x = ""
  · subst hx
    rfl
  · have hnx : normalize_work_name x = String.mk (normalizeL x.toList) := by
      simp [normalize_work_name, hx]
    by_cases hz : String.mk (normalizeL x.toList) = ""
    · rw [hnx, hz]
      rfl
    · rw [hnx]
      show normalize_work_name (String.mk (normalizeL x.toList)) = String.mk (normalizeL x.toList)
      unfold normalize_work_name
      rw [if_neg hz]
      rw [toList_mk]
      have hlast : ∀ c, (normalizeL x.toList).getLast? = some c →
          isRegexLetter c = false ∧ isPyDigit c = false := by
        intro c hc
        rw [hnx] at h
        unfold endsInLetterOrDigit at h
        rw [toList_mk, hc] at h
        simp only [Bool.or_eq_false_iff] at h
        exact h
      rw [normalizeL_idem x.toList (fun c hc => (hlast c hc).1) (fun c hc => (hlast c hc).2)]

set_option maxHeartbeats 1600000 in
/-- Witness for the amended C2. -/
theorem normalize_idempotent_amended_witness :
    endsInLetterOrDigit (normalize_work_name "TEL対応（至急）") = false ∧
    normalize_work_name (normalize_work_name "TEL対応（至急）") =
      normalize_work_name "TEL対応（至急）" :=
  ⟨by decide, normalize_idempotent_amended "TEL対応（至急）" (by decide)⟩
